import Mathlib

/-!
Verification development for wedbav, a WebDAV server that stores a virtual
filesystem (VFS) in a single relational table.  The definitions below are a
shallow embedding of the TypeScript sources: `src/utils.ts` (path and LIKE
helpers), `src/fs.ts` (the KyselyFs VFS over the table), `src/abstract.ts`
(the VFSError / VStats / VDirent classes), `src/copy_move.ts` (the COPY/MOVE
planner) and the DELETE route of `src/api.ts`.  Strings are Lean `String`s,
byte blobs are `List Nat`, timestamps are `Nat` values passed in explicitly
(the source reads `Date.now()`), and the table is a list of rows keyed by
`path`.  SQL statements are modelled by list operations; the LIKE operator is
modelled with its standard semantics (`%` and `_` wildcards, every other
character literal, no escape character, since the generated statements carry
no ESCAPE clause).
-/

namespace Wedbav

/-- JS `s.endsWith("/")`: true iff the last character is a slash. -/
def endsWithSlash (s : String) : Bool := s.data.getLast? == some '/'

/-- JS `s.startsWith("/")`: true iff the first character is a slash. -/
def startsWithSlash (s : String) : Bool := s.data.head? == some '/'

/-- JS `a.startsWith(b)` for general `b`. -/
def strStartsWith (a b : String) : Bool := b.data.isPrefixOf a.data

/-- JS `s.includes("/")`. -/
def containsSlash (s : String) : Bool := s.data.contains '/'

/-- `removeSuffixSlash` from src/utils.ts: repeatedly strips a trailing `/`. -/
def removeSuffixSlash (s : String) : String :=
  ⟨(s.data.reverse.dropWhile (fun c => c == '/')).reverse⟩

/-- Splitting a character list at `/` (JS `s.split("/")`): always returns at
least one (possibly empty) segment, and one more segment per separator. -/
def splitSlash : List Char → List (List Char)
  | [] => [[]]
  | c :: rest =>
      if c = '/' then [] :: splitSlash rest
      else
        match splitSlash rest with
        | t :: ts => (c :: t) :: ts
        | [] => [[c]]

/-- Joining segments with `/` (JS `segs.join("/")`). -/
def joinSlash : List (List Char) → List Char
  | [] => []
  | [s] => s
  | s :: t :: ts => s ++ '/' :: joinSlash (t :: ts)

/-- One step of Node's posix `normalizeString`: drop empty and `.` segments,
resolve `..` against the accumulated segments, and keep leading `..` segments
only for relative paths (`allowAboveRoot`). -/
def normSegStep (allowAboveRoot : Bool) (acc : List (List Char)) (seg : List Char) :
    List (List Char) :=
  if seg = [] || seg = ['.'] then acc
  else if seg = ['.', '.'] then
    match acc.getLast? with
    | some last =>
        if last = ['.', '.'] then (if allowAboveRoot then acc ++ [seg] else acc)
        else acc.dropLast
    | none => if allowAboveRoot then [['.', '.']] else []
  else acc ++ [seg]

/-- Segment resolution of Node's posix `normalizeString`. -/
def normSegsC (allowAboveRoot : Bool) (segs : List (List Char)) : List (List Char) :=
  segs.foldl (normSegStep allowAboveRoot) []

/-- Node `path.posix.normalize`. -/
def posixNormalize (p : String) : String :=
  if p = "" then "."
  else
    let isAbs := startsWithSlash p
    let trail := endsWithSlash p
    let core := joinSlash (normSegsC (!isAbs) (splitSlash p.data))
    if core = [] then
      if isAbs then "/" else if trail then "./" else "."
    else
      let core2 := if trail then core ++ ['/'] else core
      ⟨if isAbs then '/' :: core2 else core2⟩

/-- `normalizePathLike` from src/utils.ts (the PathLike is already a string). -/
def normalizePathLike (pathLike : String) : String := posixNormalize pathLike

/-- Node `path.posix.dirname`: index of the separator before the last
non-slash run (scanning indices down to 1), with the root special cases. -/
def posixDirname (p : String) : String :=
  if p = "" then "."
  else
    let hasRoot := startsWithSlash p
    let rest := p.data.drop 1
    let r := (rest.reverse.dropWhile (fun c => c == '/')).dropWhile (fun c => c ≠ '/')
    if r.isEmpty then (if hasRoot then "/" else ".")
    else if hasRoot && r.length == 1 then "//"
    else ⟨p.data.take r.length⟩

/-- Node `path.posix.resolve` of a single path, with the working directory
fixed to `/` (the VFS only ever resolves absolute keys; a relative key would
depend on the external process cwd, modelled as the root). -/
def posixResolveAbs (p : String) : String :=
  let segs := normSegsC false (splitSlash p.data)
  if segs.isEmpty then "/" else ⟨'/' :: joinSlash segs⟩

/-- JS `s.split("/")` at string level (via `splitSlash`). -/
def splitOnSlash (s : String) : List String := (splitSlash s.data).map (fun l => ⟨l⟩)

/-- Length of the common segment prefix of two segment lists. -/
def commonPrefixLen : List String → List String → Nat
  | a :: as, b :: bs => if a = b then commonPrefixLen as bs + 1 else 0
  | _, _ => 0

/-- Node `path.posix.relative`: resolve both paths, then climb with `..` to
the longest common segment prefix and descend into the target. -/
def posixRelative (fromP toP : String) : String :=
  let f := posixResolveAbs fromP
  let t := posixResolveAbs toP
  if f == t then ""
  else
    let fsegs := (splitOnSlash f).filter (fun s => s ≠ "")
    let tsegs := (splitOnSlash t).filter (fun s => s ≠ "")
    let common := commonPrefixLen fsegs tsegs
    String.intercalate "/" (List.replicate (fsegs.length - common) ".." ++ tsegs.drop common)

/-- Node `path.posix.join` of two parts: concatenate the non-empty parts with
`/` and normalize; `.` for an empty join. -/
def posixJoin2 (a b : String) : String :=
  let joined := if a = "" then b else if b = "" then a else a ++ "/" ++ b
  if joined = "" then "." else posixNormalize joined

/-- `encodePathForSQL` from src/utils.ts: the regex `[\%_]` matches only `%`
and `_` (inside a character class `\%` is just `%`; the backslash itself is
not in the class), and the replacement `String.raw of backslash backslash
dollar ampersand` prepends two literal backslashes to each match. -/
def encodePathForSQL (key : String) : String :=
  ⟨key.data.foldr
    (fun c acc => if c == '%' || c == '_' then '\\' :: '\\' :: c :: acc else c :: acc) []⟩

/-- All suffixes of a character list, the list itself first. -/
def allSuffixes : List Char → List (List Char)
  | [] => [[]]
  | c :: s => (c :: s) :: allSuffixes s

/-- SQL LIKE matching (no ESCAPE clause is attached to any statement built by
the source, so there is no escape character): `%` matches any sequence (the
rest of the pattern may resume at any suffix), `_` any single character,
everything else itself. -/
def likeMatch : List Char → List Char → Bool
  | [], s => s.isEmpty
  | '%' :: ps, s => (allSuffixes s).any (fun t => likeMatch ps t)
  | '_' :: _, [] => false
  | '_' :: ps, _ :: s => likeMatch ps s
  | _ :: _, [] => false
  | p :: ps, c :: s => p == c && likeMatch ps s

/-- String-level wrapper for `likeMatch`. -/
def likeMatchS (pat s : String) : Bool := likeMatch pat.data s.data

/-- JS `s.replace(pat, repl)` with a string pattern: replace the first
occurrence only (helper on character lists). -/
def replaceFirstAux (pat repl : List Char) : List Char → List Char
  | [] => []
  | c :: rest =>
      if pat.isPrefixOf (c :: rest) then repl ++ (c :: rest).drop pat.length
      else c :: replaceFirstAux pat repl rest

/-- JS `s.replace(pat, repl)` with a string pattern (first occurrence; an
empty pattern matches at the start). -/
def replaceFirst (s pat repl : String) : String :=
  if pat.data.isEmpty then ⟨repl.data ++ s.data⟩
  else ⟨replaceFirstAux pat.data repl.data s.data⟩

/-- Code-unit lexicographic order on characters lists (JS default sort). -/
def charListLe : List Char → List Char → Bool
  | [], _ => true
  | _ :: _, [] => false
  | a :: as, b :: bs => if a = b then charListLe as bs else decide (a < b)

/-- JS default `Array.sort` comparison for strings. -/
def strLe (a b : String) : Bool := charListLe a.data b.data

/-- Insertion into a lexicographically sorted list of strings. -/
def insertSorted (x : String) : List String → List String
  | [] => [x]
  | y :: ys => if strLe x y then x :: y :: ys else y :: insertSorted x ys

/-- JS `Array.from(set).sort()`. -/
def sortStrings (l : List String) : List String := l.foldr insertSorted []

/-- JS `Set.add`: append if not already present (insertion order kept). -/
def insertSet (l : List String) (x : String) : List String :=
  if l.contains x then l else l ++ [x]

/-! ### SHA-256 (the `node:crypto` hash used by `createEtag` in src/utils.ts) -/

/-- Truncation to a 32-bit word. -/
def w32 (n : Nat) : Nat := n % 4294967296

/-- 32-bit right rotation. -/
def rotr32 (n x : Nat) : Nat := w32 ((x >>> n) ||| (x <<< (32 - n)))

/-- Big-endian bytes of a 64-bit length. -/
def beBytes8 (n : Nat) : List Nat := (List.range 8).map (fun i => (n >>> ((7 - i) * 8)) % 256)

/-- Big-endian bytes of a 32-bit word. -/
def beBytes4 (n : Nat) : List Nat := (List.range 4).map (fun i => (n >>> ((3 - i) * 8)) % 256)

/-- SHA-256 padding: `0x80`, zeros, then the 64-bit big-endian bit length. -/
def sha256Pad (msg : List Nat) : List Nat :=
  let padZeros := (64 - ((msg.length + 9) % 64)) % 64
  msg ++ [128] ++ List.replicate padZeros 0 ++ beBytes8 (msg.length * 8)

/-- Structural walk splitting a list into consecutive chunks of `size`
elements (accumulator kept reversed; the last chunk may be shorter). -/
def chunksGo (size : Nat) : List Nat → List Nat → List (List Nat)
  | [], acc => if acc.isEmpty then [] else [acc.reverse]
  | b :: rest, acc =>
      if acc.length + 1 == size then (acc.reverse ++ [b]) :: chunksGo size rest []
      else chunksGo size rest (b :: acc)

/-- Split a byte list into 64-byte blocks. -/
def chunks64 (l : List Nat) : List (List Nat) := chunksGo 64 l []

/-- Split a block into 4-byte groups. -/
def chunks4 (l : List Nat) : List (List Nat) := chunksGo 4 l []

/-- Big-endian word from bytes. -/
def beWord (l : List Nat) : Nat := l.foldl (fun acc b => acc * 256 + b) 0

/-- SHA-256 round constants (FIPS 180-4, in decimal). -/
def sha256K : List Nat :=
  [1116352408, 1899447441, 3049323471, 3921009573, 961987163, 1508970993,
   2453635748, 2870763221, 3624381080, 310598401, 607225278, 1426881987,
   1925078388, 2162078206, 2614888103, 3248222580, 3835390401, 4022224774,
   264347078, 604807628, 770255983, 1249150122, 1555081692, 1996064986,
   2554220882, 2821834349, 2952996808, 3210313671, 3336571891, 3584528711,
   113926993, 338241895, 666307205, 773529912, 1294757372, 1396182291,
   1695183700, 1986661051, 2177026350, 2456956037, 2730485921, 2820302411,
   3259730800, 3345764771, 3516065817, 3600352804, 4094571909, 275423344,
   430227734, 506948616, 659060556, 883997877, 958139571, 1322822218,
   1537002063, 1747873779, 1955562222, 2024104815, 2227730452, 2361852424,
   2428436474, 2756734187, 3204031479, 3329325298]

/-- SHA-256 initial hash (FIPS 180-4, in decimal). -/
def sha256H0 : List Nat :=
  [1779033703, 3144134277, 1013904242, 2773480762,
   1359893119, 2600822924, 528734635, 1541459225]

/-- Message-schedule sigma functions. -/
def smallSigma0 (x : Nat) : Nat := (rotr32 7 x) ^^^ (rotr32 18 x) ^^^ (x >>> 3)

/-- Message-schedule sigma functions. -/
def smallSigma1 (x : Nat) : Nat := (rotr32 17 x) ^^^ (rotr32 19 x) ^^^ (x >>> 10)

/-- Compression sigma functions. -/
def bigSigma0 (x : Nat) : Nat := (rotr32 2 x) ^^^ (rotr32 13 x) ^^^ (rotr32 22 x)

/-- Compression sigma functions. -/
def bigSigma1 (x : Nat) : Nat := (rotr32 6 x) ^^^ (rotr32 11 x) ^^^ (rotr32 25 x)

/-- One extension step of the message schedule. -/
def scheduleStep (w : List Nat) : List Nat :=
  w ++ [w32 (smallSigma1 (w.getD (w.length - 2) 0) + w.getD (w.length - 7) 0 +
             smallSigma0 (w.getD (w.length - 15) 0) + w.getD (w.length - 16) 0)]

/-- Extend 16 words to the 64-word schedule. -/
def schedule (w16 : List Nat) : List Nat :=
  (List.range 48).foldl (fun w _ => scheduleStep w) w16

/-- One compression round on the state `[a, b, c, d, e, f, g, h]`. -/
def compressStep : List Nat → Nat × Nat → List Nat
  | [a, b, c, d, e, f, g, h], (k, w) =>
      let ch := (e &&& f) ^^^ ((4294967295 ^^^ e) &&& g)
      let maj := (a &&& b) ^^^ (a &&& c) ^^^ (b &&& c)
      let t1 := w32 (h + bigSigma1 e + ch + k + w)
      let t2 := w32 (bigSigma0 a + maj)
      [w32 (t1 + t2), a, b, c, w32 (d + t1), e, f, g]
  | s, _ => s

/-- Compress one 64-byte block into the hash state. -/
def compressBlock (h : List Nat) (block : List Nat) : List Nat :=
  let ws := schedule ((chunks4 block).map beWord)
  let final := (sha256K.zip ws).foldl compressStep h
  (h.zip final).map (fun p => w32 (p.1 + p.2))

/-- SHA-256 of a byte list, as 32 bytes. -/
def sha256 (msg : List Nat) : List Nat :=
  let hfin := (chunks64 (sha256Pad msg)).foldl compressBlock sha256H0
  hfin.foldr (fun wrd acc => beBytes4 wrd ++ acc) []

/-- Lowercase hex digit. -/
def hexDigit (n : Nat) : Char := if n < 10 then Char.ofNat (48 + n) else Char.ofNat (87 + n)

/-- Lowercase hex string of a byte list. -/
def bytesToHexLower (bs : List Nat) : String :=
  ⟨bs.foldr (fun b acc => hexDigit (b / 16) :: hexDigit (b % 16) :: acc) []⟩

/-- `createEtag` from src/utils.ts: the quoted lowercase sha-256 hex digest. -/
def createEtag (content : List Nat) : String :=
  "\"" ++ bytesToHexLower (sha256 content) ++ "\""

/-! ### Data model: one table of rows keyed by `path` (src/fs.ts) -/

/-- One row of the `filesystem` table.  A path ending in `/` is an explicit
directory row; `content` is NULL (`none`) for directory rows. -/
structure Row where
  path : String
  created_at : Nat
  modified_at : Nat
  size : Nat
  etag : String
  content : Option (List Nat)
  meta : Option String
deriving Repr, DecidableEq

/-- The table state: the list of rows (primary key `path`). -/
abbrev State := List Row

-- Decidable equality of operation results (used to evaluate concrete scenarios).
deriving instance DecidableEq for Except

/-- The fields the VFSError constructor receives (src/abstract.ts). -/
structure ErrInfo where
  code : String
  syscall : String
  path : String
deriving Repr, DecidableEq

/-- Errors thrown while executing an operation: a VFSError (constructed with
a message and an ErrInfo) or an error coming from the database driver. -/
inductive JSError where
  | vfs (message : String) (info : ErrInfo)
  | db (message : String)
deriving Repr, DecidableEq

/-- `isErrnoException` from src/utils.ts tests
`error instanceof Error && "code" in error && "syscall" in error && "path" in error`.
The VFSError constructor in src/abstract.ts destructures `{code, syscall, path}`
into locals for the message but never assigns them to `this`, so a VFSError
instance has none of these properties; database driver errors do not carry
`syscall`/`path` properties either.  Hence the test is false for every error
this system throws. -/
def isErrnoException (_ : JSError) : Bool := false

/-- The `code` own property read off a caught error (`err.code`): undefined
(`none`) on VFSError instances (never assigned, see `isErrnoException`);
database driver codes are driver-specific strings, never equal to the errno
names the source compares against, so `none` is observationally equal. -/
def errnoCodeProp (_ : JSError) : Option String := none

/-- The `message` property of a thrown error.  The VFSError constructor calls
`super` with the template `code: message, syscall 'path'`. -/
def jsErrorMessage : JSError → String
  | .vfs m i => i.code ++ ": " ++ m ++ ", " ++ i.syscall ++ " '" ++ i.path ++ "'"
  | .db m => m

/-- What a `Stats` object built by the VStats class (src/abstract.ts) exposes
of a row: kind, times, size, and for files the etag (the ETAG symbol slot,
undefined for directory stats). -/
structure VStats where
  isDir : Bool
  created_at : Nat
  modified_at : Nat
  size : Nat
  etag : Option String
deriving Repr, DecidableEq

/-! ### SQL statements over the table state -/

/-- `SELECT ... WHERE path = key` with `executeTakeFirst`. -/
def findRow (st : State) (key : String) : Option Row := st.find? (fun r => r.path == key)

/-- The LIKE pattern the source builds for a prefix key. -/
def likePattern (prefixKey : String) : String := encodePathForSQL prefixKey ++ "%"

/-- `SELECT ... WHERE path LIKE pat` (all rows). -/
def rowsLike (st : State) (pat : String) : List Row := st.filter (fun r => likeMatchS pat r.path)

/-- `SELECT ... WHERE path LIKE pat` with `executeTakeFirst`, as existence. -/
def anyRowLike (st : State) (pat : String) : Bool := st.any (fun r => likeMatchS pat r.path)

/-- Whether a row with exactly this key exists. -/
def hasPath (st : State) (key : String) : Bool := st.any (fun r => r.path == key)

/-- Plain `INSERT`: a duplicate primary key raises a database error. -/
def sqlInsert (st : State) (r : Row) : Except JSError State :=
  if hasPath st r.path then .error (.db "UNIQUE constraint failed: path")
  else .ok (st ++ [r])

/-- `INSERT ... ON CONFLICT (path) DO UPDATE SET ...`: insert the row, or
apply the conflict update to the existing row. -/
def sqlUpsert (st : State) (r : Row) (update : Row → Row) : State :=
  if hasPath st r.path then st.map (fun x => if x.path == r.path then update x else x)
  else st ++ [r]

/-- `DELETE ... WHERE path = key` (affecting zero rows is not an error). -/
def sqlDeleteEq (st : State) (key : String) : State := st.filter (fun r => ¬ r.path == key)

/-- `DELETE ... WHERE path LIKE pat`. -/
def sqlDeleteLike (st : State) (pat : String) : State :=
  st.filter (fun r => ¬ likeMatchS pat r.path)

/-- `UPDATE ... SET path = newKey, modified_at = now WHERE path = oldKey`:
moving a row onto an existing distinct primary key raises a database error. -/
def sqlUpdatePath (st : State) (oldKey newKey : String) (now : Nat) : Except JSError State :=
  if hasPath st oldKey && ¬ oldKey == newKey && hasPath st newKey then
    .error (.db "UNIQUE constraint failed: path")
  else
    .ok (st.map (fun r => if r.path == oldKey then { r with path := newKey, modified_at := now } else r))

namespace KyselyFs

/-- `_getFileStats` (src/fs.ts): file row lookup by exact key. -/
def getFileStats (st : State) (fileKey : String) : Option VStats :=
  (findRow st fileKey).map (fun r => ⟨false, r.created_at, r.modified_at, r.size, some r.etag⟩)

/-- `_getExplicitDirStats`: explicit directory row lookup by exact key. -/
def getExplicitDirStats (st : State) (dirKey : String) : Option VStats :=
  (findRow st dirKey).map (fun r => ⟨true, r.created_at, r.modified_at, 0, none⟩)

/-- `_getImplicitDirStats`: MIN(created_at) / MAX(modified_at) over rows
matching the escaped LIKE prefix and different from the key itself.  The JS
truthiness test `if (dirAgg?.created_at)` also drops an aggregate whose
minimum is the number 0. -/
def getImplicitDirStats (st : State) (dirKey : String) : Option VStats :=
  let children := (rowsLike st (likePattern dirKey)).filter (fun r => ¬ r.path == dirKey)
  match children with
  | [] => none
  | c :: cs =>
      let minC := (cs.map Row.created_at).foldl Nat.min c.created_at
      let maxM := (cs.map Row.modified_at).foldl Nat.max c.modified_at
      if minC == 0 then none else some ⟨true, minC, maxM, 0, none⟩

/-- `_getDirStats`: explicit row first, then implicit directory. -/
def getDirStats (st : State) (dirKey : String) : Option VStats :=
  if dirKey = "" then getImplicitDirStats st "/"
  else
    match getExplicitDirStats st dirKey with
    | some s => some s
    | none => getImplicitDirStats st dirKey

/-- `KyselyFs.stat`: directory resolution for keys ending in `/`, otherwise
file lookup first, then directory fallback on `key + "/"`. -/
def stat (st : State) (path : String) : Except JSError VStats :=
  let key := normalizePathLike path
  if endsWithSlash key then
    let dirKey := removeSuffixSlash key ++ "/"
    match getDirStats st dirKey with
    | some d => .ok d
    | none => .error (.vfs "no such file or directory" ⟨"ENOENT", "stat", path⟩)
  else
    match getFileStats st key with
    | some f => .ok f
    | none =>
        match getDirStats st (key ++ "/") with
        | some d => .ok d
        | none => .error (.vfs "no such file or directory" ⟨"ENOENT", "stat", path⟩)

/-- `KyselyFs.copyFile`. -/
def copyFile (st : State) (src dest : String) (now : Nat) : Except JSError State :=
  let srcKey := normalizePathLike src
  if endsWithSlash srcKey then
    .error (.vfs "Cannot copy directory to file" ⟨"EINVAL", "copyfile", dest⟩)
  else
    let destKey := normalizePathLike dest
    if endsWithSlash destKey then
      .error (.vfs "Cannot copy file to directory" ⟨"EISDIR", "copyfile", dest⟩)
    else if (getDirStats st (destKey ++ "/")).isSome then
      .error (.vfs "Cannot copy file to directory" ⟨"EISDIR", "copyfile", dest⟩)
    else
      match findRow st srcKey with
      | none => .error (.vfs "no such file or directory" ⟨"ENOENT", "copyfile", src⟩)
      | some file =>
          .ok (sqlUpsert st
            ⟨destKey, now, now, file.size, file.etag, file.content, none⟩
            (fun x => { x with modified_at := now, size := file.size,
                               content := file.content, etag := file.etag }))

/-- The child-rewriting loop of the directory branch of `rename`: one UPDATE
per row matching the old prefix, stopping at the first database error (the
updates already applied persist, carried in the error). -/
def renameChildren (st : State) (oldDirKey newDirKey : String) (now : Nat) :
    Except (JSError × State) State :=
  let allFiles := rowsLike st (likePattern oldDirKey)
  allFiles.foldl
    (fun acc r =>
      match acc with
      | .error e => .error e
      | .ok s =>
          match sqlUpdatePath s r.path (replaceFirst r.path oldDirKey newDirKey) now with
          | .error e => .error (e, s)
          | .ok s2 => .ok s2)
    (.ok st)

/-- `KyselyFs.rename`.  On error the partially mutated state is carried with
the thrown error. -/
def rename (st : State) (oldPath newPath : String) (now : Nat) :
    Except (JSError × State) State :=
  let oldKey := normalizePathLike oldPath
  let isDir := endsWithSlash oldKey
  let newKey := normalizePathLike newPath
  if isDir then
    let oldDirKey := oldKey
    let newDirKey := removeSuffixSlash newKey ++ "/"
    match getExplicitDirStats st oldKey with
    | some _ =>
        if (getExplicitDirStats st newDirKey).isSome then
          .error (.vfs "file exists" ⟨"EEXIST", "rename", newPath⟩, st)
        else
          match sqlUpdatePath st oldKey newDirKey now with
          | .error e => .error (e, st)
          | .ok st1 => renameChildren st1 oldDirKey newDirKey now
    | none => renameChildren st oldDirKey newDirKey now
  else
    let oldFileKey := oldKey
    let newFileKey := newKey
    match getFileStats st oldFileKey with
    | none => .error (.vfs "no such file or directory" ⟨"ENOENT", "rename", oldFileKey⟩, st)
    | some _ =>
        if (getDirStats st (newFileKey ++ "/")).isSome then
          .error (.vfs "illegal operation on a directory" ⟨"EISDIR", "rename", newPath⟩, st)
        else if (getFileStats st newFileKey).isSome then
          .error (.vfs "file already exists" ⟨"EEXIST", "rename", newPath⟩, st)
        else
          match sqlUpdatePath st oldFileKey newFileKey now with
          | .error e => .error (e, st)
          | .ok st1 => .ok st1

/-- `KyselyFs.rmdir`.  The non-recursive children check issues
`path LIKE escaped(dirKey) + "%"` with no exclusion of `dirKey` itself. -/
def rmdir (st : State) (path : String) (recursive : Bool) : Except JSError State :=
  let fileKey := removeSuffixSlash (normalizePathLike path)
  let dirKey := fileKey ++ "/"
  if (getFileStats st fileKey).isSome then
    .error (.vfs "not a directory" ⟨"ENOTDIR", "rmdir", path⟩)
  else if ¬ recursive && anyRowLike st (likePattern dirKey) then
    .error (.vfs "directory not empty" ⟨"ENOTEMPTY", "rmdir", path⟩)
  else
    .ok (sqlDeleteLike (sqlDeleteEq st dirKey) (likePattern dirKey))

/-- `KyselyFs.unlink`: EISDIR on a trailing-slash key, otherwise an exact
DELETE (zero affected rows is a success). -/
def unlink (st : State) (path : String) : Except JSError State :=
  let key := normalizePathLike path
  if endsWithSlash key then
    .error (.vfs "illegal operation on a directory" ⟨"EISDIR", "unlink", path⟩)
  else .ok (sqlDeleteEq st key)

/-- `KyselyFs.rm`.  The directory branch executes `return this.rmdir(...)`
inside the try block without awaiting, so a rejection of that promise is NOT
intercepted by the catch and surfaces unchanged; `stat` and `unlink` are
awaited inside the try, so their errors reach the catch, which returns when
`force` and otherwise throws a fresh ENOENT. -/
def rm (st : State) (path : String) (recursive force : Bool) : Except JSError State :=
  let key := normalizePathLike path
  let fileKey := removeSuffixSlash key
  let dirKey := fileKey ++ "/"
  match stat st path with
  | .error _ =>
      if force then .ok st
      else .error (.vfs "no such file or directory" ⟨"ENOENT", "rm", path⟩)
  | .ok s =>
      if s.isDir then rmdir st dirKey recursive
      else
        match unlink st fileKey with
        | .ok st1 => .ok st1
        | .error _ =>
            if force then .ok st
            else .error (.vfs "no such file or directory" ⟨"ENOENT", "rm", path⟩)

/-- `KyselyFs.mkdir`: EEXIST checks, then the parent check (non-recursive
only) on `dirname(dirKey) + "/"`, then one INSERT; returns the created key
when recursive. -/
def mkdir (st : State) (path : String) (recursive : Bool) (now : Nat) :
    Except JSError (Option String × State) :=
  let fileKey := removeSuffixSlash (normalizePathLike path)
  let dirKey := fileKey ++ "/"
  if (getFileStats st fileKey).isSome then
    .error (.vfs "file exists" ⟨"EEXIST", "mkdir", path⟩)
  else if (getDirStats st dirKey).isSome then
    .error (.vfs "file exists" ⟨"EEXIST", "mkdir", path⟩)
  else
    let parentDirKey := posixDirname dirKey ++ "/"
    if ¬ recursive && (¬ parentDirKey == "./" && ¬ (getDirStats st parentDirKey).isSome) then
      .error (.vfs "no such file or directory" ⟨"ENOENT", "mkdir", path⟩)
    else
      match sqlInsert st ⟨dirKey, now, now, 0, "", none, none⟩ with
      | .error e => .error e
      | .ok st1 => .ok (if recursive then some dirKey else none, st1)

/-- `KyselyFs.writeFile`: EISDIR when an explicit directory row with the same
base exists, then an upsert of the file row (the conflict update refreshes
`modified_at`, `size`, `content`, `etag` but not `created_at`). -/
def writeFile (st : State) (file : String) (data : List Nat) (now : Nat) :
    Except JSError State :=
  let fileKey := removeSuffixSlash (normalizePathLike file)
  let dirKey := fileKey ++ "/"
  if (getExplicitDirStats st dirKey).isSome then
    .error (.vfs "illegal operation on a directory" ⟨"EISDIR", "writeFile", file⟩)
  else
    let size := data.length
    let etag := createEtag data
    .ok (sqlUpsert st ⟨fileKey, now, now, size, etag, some data, none⟩
      (fun x => { x with modified_at := now, size := size, content := some data, etag := etag }))

/-- `KyselyFs.readFile` (no encoding argument): ENOENT when the row is
missing or its content is NULL. -/
def readFile (st : State) (path : String) : Except JSError (List Nat) :=
  let fileKey := removeSuffixSlash (normalizePathLike path)
  match findRow st fileKey with
  | none => .error (.vfs "no such file or directory" ⟨"ENOENT", "readFile", path⟩)
  | some r =>
      match r.content with
      | none => .error (.vfs "no such file or directory" ⟨"ENOENT", "readFile", path⟩)
      | some c => .ok c

end KyselyFs

/-- A directory entry as built by the VDirent class (src/abstract.ts):
`name` is the last segment of the full path with the prefix removed (via the
first-occurrence `replace`), `parentPath` the remaining segments. -/
structure VDirent where
  fullPath : String
  isDir : Bool
  name : String
  parentPath : String
deriving Repr, DecidableEq

/-- Constructor of the VDirent class. -/
def mkVDirent (pre full : String) (isDir : Bool) : VDirent :=
  let filePath := replaceFirst full pre ""
  let segments := splitOnSlash filePath
  ⟨full, isDir, (segments.getLast?).getD "", String.intercalate "/" segments.dropLast⟩

/-- The non-empty proper prefixes of `s` that end right before a `/`, in
increasing order: the `indexOf("/")` scan of the recursive readdir branch. -/
def properSlashPrefixes (s : String) : List String :=
  (List.range s.data.length).filterMap (fun i =>
    if s.data.getD i ' ' == '/' then
      (if i = 0 then none else some (⟨s.data.take i⟩ : String))
    else none)

namespace KyselyFs

/-- The dirSet / fileSet accumulation loop of `KyselyFs.readdir` over the
rows matching the LIKE prefix (JS Sets keep insertion order; both sets are
sorted afterwards so the order here is irrelevant). -/
def readdirSets (st : State) (dirKey : String) (recursive : Bool) :
    List String × List String :=
  let allFiles := rowsLike st (likePattern dirKey)
  allFiles.foldl
    (fun acc entry =>
      let fullPath := entry.path
      if fullPath == dirKey then acc
      else
        let isDir := endsWithSlash fullPath
        let rel := posixRelative dirKey fullPath
        if recursive then
          let acc1 : List String × List String :=
            if isDir then (insertSet acc.1 (removeSuffixSlash fullPath), acc.2)
            else (acc.1, insertSet acc.2 fullPath)
          let relNoSlash := removeSuffixSlash rel
          if relNoSlash == "" then acc1
          else
            ((properSlashPrefixes relNoSlash).foldl (fun d p => insertSet d (dirKey ++ p)) acc1.1,
             acc1.2)
        else
          if isDir then
            let first := (splitOnSlash rel).headD ""
            if first == "" then acc
            else (insertSet acc.1 (removeSuffixSlash (dirKey ++ first)), acc.2)
          else
            if containsSlash rel then
              let first := (splitOnSlash rel).headD ""
              if first == "" then acc
              else (insertSet acc.1 (removeSuffixSlash (dirKey ++ first)), acc.2)
            else (acc.1, insertSet acc.2 (dirKey ++ rel)))
    ([], [])

/-- `KyselyFs.readdir` with `withFileTypes`: sorted directory entries first,
then sorted file entries.  It never throws (no existence check is made). -/
def readdir (st : State) (path : String) (recursive : Bool) : List VDirent :=
  let dirKey := removeSuffixSlash (normalizePathLike path) ++ "/"
  let sets := readdirSets st dirKey recursive
  (sortStrings sets.1).map (fun d => mkVDirent dirKey d true) ++
    (sortStrings sets.2).map (fun f => mkVDirent dirKey f false)

/-- `KyselyFs.readdir` without `withFileTypes`: the full paths with the
directory prefix removed. -/
def readdirNames (st : State) (path : String) (recursive : Bool) : List String :=
  let dirKey := removeSuffixSlash (normalizePathLike path) ++ "/"
  (readdir st path recursive).map (fun d => replaceFirst d.fullPath dirKey "")

/-- One `substr(content, off, n)` query of `createReadStream` (1-indexed):
outer `none` when no row matches the key (`part` undefined), inner `none`
when `content` is SQL NULL.  A query past the end of a non-NULL blob returns
an empty byte array (`some (some [])`), not NULL. -/
def substrQuery (st : State) (fileKey : String) (off n : Nat) : Option (Option (List Nat)) :=
  (findRow st fileKey).map (fun r => r.content.map (fun c => (c.drop (off - 1)).take n))

/-- The chunk loop of `KyselyFs.createReadStream`: starting at offset 1 and
advancing by the requested size, it pushes the query result and terminates
(pushes null) only when `!part || !part.content` holds, i.e. when the row is
missing or `content` is NULL; an empty byte array is truthy in JS and is
pushed as a zero-length chunk.  `some chunks` means the loop reached the
termination test within `fuel` queries; `none` means it was still issuing
queries after `fuel` rounds. -/
def readStreamChunks (st : State) (fileKey : String) (size : Nat) :
    Nat → Nat → Option (List (List Nat))
  | 0, _ => none
  | fuel + 1, off =>
      match substrQuery st fileKey off size with
      | none => some []
      | some none => some []
      | some (some bytes) =>
          (readStreamChunks st fileKey size fuel (off + size)).map (fun rest => bytes :: rest)

/-- `KyselyFs.createReadStream` as the sequence of chunks produced when every
`read(size)` call requests the same size. -/
def createReadStream (st : State) (path : String) (size : Nat) (fuel : Nat) :
    Option (List (List Nat)) :=
  readStreamChunks st (removeSuffixSlash (normalizePathLike path)) size fuel 1

end KyselyFs

/-- Modelled from the spec: the same chunk loop with the termination test the
spec describes, "terminates when a query returns no bytes" (the conversion of
an empty database blob into a JS value happens in the external driver; the
spec's reading treats a zero-length result as end of stream). -/
def readStreamChunksSpec (st : State) (fileKey : String) (size : Nat) :
    Nat → Nat → Option (List (List Nat))
  | 0, _ => none
  | fuel + 1, off =>
      match KyselyFs.substrQuery st fileKey off size with
      | none => some []
      | some none => some []
      | some (some bytes) =>
          if bytes.isEmpty then some []
          else (readStreamChunksSpec st fileKey size fuel (off + size)).map (fun rest => bytes :: rest)

/-- The DELETE route of src/api.ts: `rm(pathname, {recursive: true, force:
true})` then an empty 204 response; `none` models an unhandled rejection. -/
def deleteHandler (st : State) (pathname : String) : Option (Nat × State) :=
  match KyselyFs.rm st pathname true true with
  | .ok st1 => some (204, st1)
  | .error _ => none

/-! ### The COPY/MOVE planner (src/copy_move.ts) -/

/-- `normalizeDavPath` from src/copy_move.ts. -/
def normalizeDavPath (pathname : String) : String :=
  if pathname = "" then "/"
  else
    let p1 := if startsWithSlash pathname then pathname else "/" ++ pathname
    let p2 := if p1 == "/" then p1 else removeSuffixSlash (posixNormalize p1)
    let p3 := if startsWithSlash p2 then p2 else "/" ++ p2
    if p3 = "" then "/" else p3

/-- `withTrailingSlash` from src/copy_move.ts. -/
def withTrailingSlash (pathname : String) : String :=
  if pathname == "/" then "/" else removeSuffixSlash pathname ++ "/"

/-- `getParentDavPath` from src/copy_move.ts. -/
def getParentDavPath (pathname : String) : Option String :=
  let normalized := normalizeDavPath pathname
  if normalized == "/" then none
  else
    let parent := posixDirname normalized
    if parent == normalized then none else some parent

/-- `joinDavPath` from src/copy_move.ts. -/
def joinDavPath (parentDir childName : String) (isDir : Bool) : String :=
  let base := if parentDir == "/" then "/" else removeSuffixSlash parentDir
  let combined := posixJoin2 base childName
  let combined := if startsWithSlash combined then combined else "/" ++ combined
  if isDir then withTrailingSlash combined else normalizeDavPath combined

/-- A per-resource error entry for the 207 Multi-Status body. -/
structure CopyError where
  href : String
  status : Nat
  description : Option String
deriving Repr, DecidableEq

/-- The result value of `copyLikeOperation`. -/
inductive CopyResult where
  | failure (status : Nat) (message : String)
  | success (destinationExisted : Bool) (errors : List CopyError)
deriving Repr, DecidableEq

/-- Outcome of running a planner function over the table: a returned value
with the final state, an uncaught thrown error with the state at the throw,
or recursion-budget exhaustion of the model (the source recursion is
unbounded). -/
inductive PlanOut (α : Type) where
  | res (value : α) (st : State)
  | thrown (e : JSError) (st : State)
  | nofuel
deriving Repr, DecidableEq

/-- `mapErrnoToStatus` from src/copy_move.ts: it switches on the `code` own
property of the caught error, which is undefined on VFSError instances and a
driver string on database errors (see `errnoCodeProp`), so every call reaches
the default branch, 500. -/
def mapErrnoToStatusCM (_ : JSError) : Nat := 500

/-- `copyDirectoryRecursive` from src/copy_move.ts, with an explicit
recursion budget (`fuel`) counting directory levels.  The readdir call never
throws in this VFS, so its catch block is not represented.  In the mkdir and
copyFile catch blocks the `isErrnoException` guard is false for every error
this system throws (see `isErrnoException`), so the EEXIST-tolerance and the
per-resource error push are dead and the error propagates. -/
def copyDirectoryRecursive :
    Nat → State → String → String → Option Nat → Nat → PlanOut (List CopyError)
  | 0, _, _, _, _, _ => .nofuel
  | fuel + 1, st, source, destination, depth, now =>
      let sourceDir := withTrailingSlash source
      let destinationDir := withTrailingSlash destination
      let afterMkdir : Except (PlanOut (List CopyError)) State :=
        match KyselyFs.mkdir st destinationDir false now with
        | .ok (_, st1) => .ok st1
        | .error e =>
            if isErrnoException e then
              if ¬ errnoCodeProp e == some "EEXIST" then
                .error (.res [⟨destinationDir, mapErrnoToStatusCM e, some (jsErrorMessage e)⟩] st)
              else .ok st
            else .error (.thrown e st)
      match afterMkdir with
      | .error out => out
      | .ok st1 =>
          if depth == some 0 then .res [] st1
          else
            let nextDepth : Option Nat := match depth with | none => none | some d => some (d - 1)
            let entries := KyselyFs.readdir st1 sourceDir false
            entries.foldl
              (fun acc entry =>
                match acc with
                | .nofuel => .nofuel
                | .thrown e s => .thrown e s
                | .res errs s =>
                    let childSource := joinDavPath sourceDir entry.name entry.isDir
                    let childDestination := joinDavPath destinationDir entry.name entry.isDir
                    if entry.isDir then
                      match copyDirectoryRecursive fuel s childSource childDestination nextDepth now with
                      | .nofuel => .nofuel
                      | .thrown e s2 => .thrown e s2
                      | .res errs2 s2 => .res (errs ++ errs2) s2
                    else
                      match KyselyFs.copyFile s childSource childDestination now with
                      | .ok s2 => .res errs s2
                      | .error e =>
                          if isErrnoException e then
                            .res (errs ++ [⟨childDestination, mapErrnoToStatusCM e, some (jsErrorMessage e)⟩]) s
                          else .thrown e s)
              (.res [] st1)

/-- `copyLikeOperation` from src/copy_move.ts: the precondition cascade, the
overwrite removal, and the execution (file copy or recursive directory
copy). -/
def copyLikeOperation (fuel : Nat) (st : State) (sourcePath destinationPath : String)
    (depth : Option Nat) (overwrite : Bool) (providedSourceStat : Option VStats)
    (now : Nat) : PlanOut CopyResult :=
  let sourceStat? : Except (PlanOut CopyResult) VStats :=
    match providedSourceStat with
    | some s => .ok s
    | none =>
        match KyselyFs.stat st sourcePath with
        | .ok s => .ok s
        | .error e =>
            if isErrnoException e then .error (.res (.failure 404 "Not Found") st)
            else .error (.thrown e st)
  match sourceStat? with
  | .error out => out
  | .ok sourceStat =>
      let sourceIsDirectory := sourceStat.isDir
      let normalizedSource := normalizeDavPath sourcePath
      let normalizedDestination := normalizeDavPath destinationPath
      if normalizedSource == normalizedDestination then
        .res (.failure 403 "Forbidden: source and destination are the same resource") st
      else if sourceIsDirectory && ¬ normalizedSource == "/" &&
          strStartsWith normalizedDestination (withTrailingSlash normalizedSource) then
        .res (.failure 403 "Forbidden: cannot copy a collection inside itself") st
      else if normalizedDestination == "/" then
        .res (.failure 403 "Forbidden: cannot overwrite root collection") st
      else
        let parentCheck : Except (PlanOut CopyResult) Unit :=
          match getParentDavPath normalizedDestination with
          | none => .ok ()
          | some parentPath =>
              if parentPath == "/" then .ok ()
              else
                match KyselyFs.stat st (withTrailingSlash parentPath) with
                | .ok parentStat =>
                    if ¬ parentStat.isDir then
                      .error (.res (.failure 409 "Conflict: destination parent is not a collection") st)
                    else .ok ()
                | .error e =>
                    if isErrnoException e then
                      .error (.res (.failure 409 "Conflict: destination parent does not exist") st)
                    else .error (.thrown e st)
        match parentCheck with
        | .error out => out
        | .ok _ =>
            let destExists? : Except (PlanOut CopyResult) Bool :=
              match KyselyFs.stat st normalizedDestination with
              | .ok _ => .ok true
              | .error e => if ¬ isErrnoException e then .error (.thrown e st) else .ok false
            match destExists? with
            | .error out => out
            | .ok destinationExists =>
                if destinationExists && ¬ overwrite then
                  .res (.failure 412 "Precondition Failed: destination exists and overwrite is not allowed") st
                else
                  let afterRm : Except (PlanOut CopyResult) State :=
                    if destinationExists then
                      match KyselyFs.rm st normalizedDestination true true with
                      | .ok st1 => .ok st1
                      | .error e =>
                          if isErrnoException e then
                            .error (.res (.failure (mapErrnoToStatusCM e) "Failed to remove destination before copy") st)
                          else .error (.thrown e st)
                    else .ok st
                  match afterRm with
                  | .error out => out
                  | .ok st1 =>
                      if sourceIsDirectory then
                        match copyDirectoryRecursive fuel st1 normalizedSource normalizedDestination depth now with
                        | .nofuel => .nofuel
                        | .thrown e st2 => .thrown e st2
                        | .res errors st2 => .res (.success destinationExists errors) st2
                      else
                        match KyselyFs.copyFile st1 normalizedSource normalizedDestination now with
                        | .ok st2 => .res (.success destinationExists []) st2
                        | .error e =>
                            if isErrnoException e then
                              .res (.failure (mapErrnoToStatusCM e) (jsErrorMessage e)) st1
                            else .thrown e st1

/-! ### Definitions used by the claim statements -/

/-- Modelled from the spec claim's words (C2): an escaper that prefixes each
of backslash, `%` and `_` with a single backslash.  The source escaper
`encodePathForSQL` is compared against this. -/
def encodePathForSQLClaimed (key : String) : String :=
  ⟨key.data.foldr
    (fun c acc => if c == '\\' || c == '%' || c == '_' then '\\' :: c :: acc else c :: acc) []⟩

/-- A segment that path normalization keeps as-is: non-empty, not the `.`
segment, and containing no separator. -/
def GoodSeg (s : List Char) : Prop := s ≠ [] ∧ s ≠ ['.'] ∧ '/' ∉ s

/-- Shape of a `normSegsC` output: a run of `..` segments (possible only for
relative resolution) followed by plain good segments. -/
def GoodSegs (allowAboveRoot : Bool) (segs : List (List Char)) : Prop :=
  ∃ n rest, segs = List.replicate n ['.', '.'] ++ rest ∧
    (∀ s ∈ rest, GoodSeg s ∧ s ≠ ['.', '.']) ∧ (allowAboveRoot = false → n = 0)

/-- The table invariant of claim C3: no file row with path `k` together with
an explicit directory row with path `k ++ "/"`. -/
def TableInv (st : State) : Prop :=
  ∀ k : String, endsWithSlash k = false → hasPath st k = true →
    hasPath st (k ++ "/") = true → False

/-- One successful mutating VFS call, any `rename` allowed. -/
inductive Step : State → State → Prop
  | writeFile {st st' : State} (p : String) (b : List Nat) (now : Nat) :
      KyselyFs.writeFile st p b now = .ok st' → Step st st'
  | mkdir {st st' : State} (p : String) (recursive : Bool) (now : Nat) (ret : Option String) :
      KyselyFs.mkdir st p recursive now = .ok (ret, st') → Step st st'
  | copyFile {st st' : State} (src dest : String) (now : Nat) :
      KyselyFs.copyFile st src dest now = .ok st' → Step st st'
  | rename {st st' : State} (oldP newP : String) (now : Nat) :
      KyselyFs.rename st oldP newP now = .ok st' → Step st st'
  | rmdir {st st' : State} (p : String) (recursive : Bool) :
      KyselyFs.rmdir st p recursive = .ok st' → Step st st'
  | unlink {st st' : State} (p : String) :
      KyselyFs.unlink st p = .ok st' → Step st st'
  | rm {st st' : State} (p : String) (recursive force : Bool) :
      KyselyFs.rm st p recursive force = .ok st' → Step st st'

/-- One successful mutating VFS call, with `rename` restricted to calls in
which neither the normalized old path nor the normalized new path ends in a
slash (no directory rename, no rename onto a directory key). -/
inductive StepSafe : State → State → Prop
  | writeFile {st st' : State} (p : String) (b : List Nat) (now : Nat) :
      KyselyFs.writeFile st p b now = .ok st' → StepSafe st st'
  | mkdir {st st' : State} (p : String) (recursive : Bool) (now : Nat) (ret : Option String) :
      KyselyFs.mkdir st p recursive now = .ok (ret, st') → StepSafe st st'
  | copyFile {st st' : State} (src dest : String) (now : Nat) :
      KyselyFs.copyFile st src dest now = .ok st' → StepSafe st st'
  | rename {st st' : State} (oldP newP : String) (now : Nat) :
      endsWithSlash (normalizePathLike oldP) = false →
      endsWithSlash (normalizePathLike newP) = false →
      KyselyFs.rename st oldP newP now = .ok st' → StepSafe st st'
  | rmdir {st st' : State} (p : String) (recursive : Bool) :
      KyselyFs.rmdir st p recursive = .ok st' → StepSafe st st'
  | unlink {st st' : State} (p : String) :
      KyselyFs.unlink st p = .ok st' → StepSafe st st'
  | rm {st st' : State} (p : String) (recursive force : Bool) :
      KyselyFs.rm st p recursive force = .ok st' → StepSafe st st'

/-- Reachability: finitely many steps of `R` from `st₁` to `st₂`. -/
inductive Reach (R : State → State → Prop) : State → State → Prop
  | refl (st : State) : Reach R st st
  | tail (st₁ st₂ st₃ : State) : Reach R st₁ st₂ → R st₂ st₃ → Reach R st₁ st₃

/-! ### Concrete tables used by counterexamples and witnesses -/

/-- State after writing a file through the trailing-slash path `/f/` (C1). -/
def c1BadState : State := (KyselyFs.writeFile [] "/f/" [104, 105] 5).toOption.getD []

/-- State after writing the two bytes `hi` to `/f` (C1 witness). -/
def c1GoodState : State := (KyselyFs.writeFile [] "/f" [104, 105] 5).toOption.getD []

/-- C2 scenario, step 1: file `/a%b`. -/
def c2st1 : State := (KyselyFs.writeFile [] "/a%b" [1] 1).toOption.getD []

/-- C2 scenario, step 2: file `/a_b`. -/
def c2st2 : State := (KyselyFs.writeFile c2st1 "/a_b" [2] 2).toOption.getD []

/-- C2 scenario, step 3: file `/axb`. -/
def c2st3 : State := (KyselyFs.writeFile c2st2 "/axb" [3] 3).toOption.getD []

/-- C3 directory-rename sequence: file `/b`. -/
def c3DirState1 : State := (KyselyFs.writeFile [] "/b" [1] 1).toOption.getD []

/-- C3 directory-rename sequence: explicit directory `/a/`. -/
def c3DirState2 : State :=
  ((KyselyFs.mkdir c3DirState1 "/a" true 2).toOption.map Prod.snd).getD []

/-- C3 directory-rename sequence: after `rename("/a/", "/b")` the table holds
both the file row `/b` and the directory row `/b/`. -/
def c3BadState1 : State := (KyselyFs.rename c3DirState2 "/a/" "/b" 3).toOption.getD []

/-- C3 file-rename sequence: file `/y`. -/
def c3FileState1 : State := (KyselyFs.writeFile [] "/y" [1] 1).toOption.getD []

/-- C3 file-rename sequence: file `/x`. -/
def c3FileState2 : State := (KyselyFs.writeFile c3FileState1 "/x" [2] 2).toOption.getD []

/-- C3 file-rename sequence: after `rename("/x", "/y/")` the table holds both
the file row `/y` and the row `/y/`. -/
def c3BadState2 : State := (KyselyFs.rename c3FileState2 "/x" "/y/" 3).toOption.getD []

/-- A table with one file `/s` (C4). -/
def c4State : State := [⟨"/s", 1, 1, 1, "e", some [7], none⟩]

/-- A table with one empty explicit directory `/d/` (C5). -/
def c5State : State := [⟨"/d/", 1, 1, 0, "", none, none⟩]

/-- A table with one file `/b`, so the root directory exists (C6). -/
def c6State : State := [⟨"/b", 1, 1, 1, "e", some [7], none⟩]

/-- A table with one explicit directory `/d/` (C7 witness). -/
def c7DirState : State := [⟨"/d/", 5, 5, 0, "", none, none⟩]

/-- A table with a source file `/s` and a destination file `/d` whose
`created_at` is 3 (C8). -/
def c8State : State :=
  [⟨"/s", 0, 0, 1, "e", some [1], none⟩, ⟨"/d", 3, 3, 1, "x", some [2], none⟩]

/-- A table with one stored two-byte file `/f` (C9). -/
def c9State : State := [⟨"/f", 1, 1, 2, "e", some [1, 2], none⟩]

/-! ### Basic facts about slashes, keys and row lookup -/

theorem data_slash : ("/" : String).data = ['/'] := rfl

theorem endsWithSlash_append_slash (s : String) : endsWithSlash (s ++ "/") = true := by
  rw [endsWithSlash, String.data_append, data_slash, List.getLast?_concat]
  rfl

theorem head?_dropWhile_slash (l : List Char) :
    ((l.dropWhile (fun c => c == '/')).head? == some '/') = false := by
  induction l with
  | nil => rfl
  | cons c t ih =>
      rw [List.dropWhile_cons]
      by_cases h : (c == '/') = true
      · rw [if_pos h]; exact ih
      · rw [if_neg h]
        simpa using h

theorem endsWithSlash_removeSuffixSlash (s : String) :
    endsWithSlash (removeSuffixSlash s) = false := by
  show (((s.data.reverse.dropWhile (fun c => c == '/')).reverse).getLast? == some '/') = false
  rw [List.getLast?_reverse]
  exact head?_dropWhile_slash _

theorem removeSuffixSlash_eq_self {s : String} (h : endsWithSlash s = false) :
    removeSuffixSlash s = s := by
  rw [endsWithSlash] at h
  cases hrev : s.data.reverse with
  | nil =>
      have hdata : s.data = [] := by
        have := congrArg List.reverse hrev
        simpa using this
      show (⟨(s.data.reverse.dropWhile (fun c => c == '/')).reverse⟩ : String) = s
      rw [hrev]
      exact String.ext (by simpa using hdata.symm)
  | cons c t =>
      have hgl : s.data.getLast? = some c := by
        rw [← List.head?_reverse, hrev]
        rfl
      have hc : (c == '/') = false := by
        rw [hgl] at h
        simpa using h
      show (⟨(s.data.reverse.dropWhile (fun c => c == '/')).reverse⟩ : String) = s
      rw [hrev, List.dropWhile_cons, if_neg (by simp [hc]), ← hrev]
      exact String.ext (by simp)

theorem append_slash_ne (k : String) : ¬ (k ++ "/" = k) := by
  intro h
  have h2 := congrArg String.data h
  rw [String.data_append, data_slash] at h2
  have h3 := congrArg List.length h2
  simp at h3

theorem append_slash_inj {a b : String} (h : a ++ "/" = b ++ "/") : a = b := by
  have h2 := congrArg String.data h
  rw [String.data_append, String.data_append] at h2
  exact String.ext (List.append_cancel_right h2)

theorem append_slash_ne_of_not_slash {a b : String} (hb : endsWithSlash b = false) :
    ¬ (a ++ "/" = b) := by
  intro h
  rw [← h] at hb
  rw [endsWithSlash_append_slash] at hb
  exact absurd hb (by simp)

theorem hasPath_iff (st : State) (k : String) :
    hasPath st k = true ↔ ∃ r ∈ st, r.path = k := by
  simp [hasPath, List.any_eq_true]

theorem findRow_eq_none_iff (st : State) (k : String) :
    findRow st k = none ↔ hasPath st k = false := by
  rw [findRow, List.find?_eq_none, hasPath, List.any_eq_false]

theorem hasPath_of_findRow {st : State} {k : String} {r : Row}
    (h : findRow st k = some r) : hasPath st k = true := by
  refine (hasPath_iff st k).mpr ⟨r, List.mem_of_find?_eq_some h, ?_⟩
  have := List.find?_some h
  simpa using this

theorem findRow_isSome_iff (st : State) (k : String) :
    (findRow st k).isSome = true ↔ hasPath st k = true := by
  constructor
  · intro h
    obtain ⟨r, hr⟩ := Option.isSome_iff_exists.mp h
    exact hasPath_of_findRow hr
  · intro h
    cases hfind : findRow st k with
    | some r => rfl
    | none =>
        rw [findRow_eq_none_iff st k] at hfind
        rw [h] at hfind
        exact absurd hfind (by simp)

/-! ### Splitting and joining path segments -/

theorem splitSlash_ne_nil (l : List Char) : splitSlash l ≠ [] := by
  cases l with
  | nil => simp [splitSlash]
  | cons c rest =>
      simp only [splitSlash]
      by_cases h : c = '/'
      · rw [if_pos h]; simp
      · rw [if_neg h]
        cases splitSlash rest <;> simp

theorem mem_splitSlash_noslash (l : List Char) : ∀ s ∈ splitSlash l, '/' ∉ s := by
  induction l with
  | nil =>
      intro s hs
      simp only [splitSlash, List.mem_singleton] at hs
      subst hs; simp
  | cons c rest ih =>
      intro s hs
      simp only [splitSlash] at hs
      by_cases h : c = '/'
      · rw [if_pos h] at hs
        rcases List.mem_cons.mp hs with rfl | hs'
        · simp
        · exact ih s hs'
      · rw [if_neg h] at hs
        cases hsp : splitSlash rest with
        | nil => exact absurd hsp (splitSlash_ne_nil rest)
        | cons t ts =>
            rw [hsp] at hs
            rcases List.mem_cons.mp hs with rfl | hs'
            · intro hmem
              rcases List.mem_cons.mp hmem with rfl | hmem'
              · exact h rfl
              · exact ih t (by rw [hsp]; exact List.mem_cons_self t ts) hmem'
            · exact ih s (by rw [hsp]; exact List.mem_cons_of_mem t hs')

theorem splitSlash_cons_slash (l : List Char) : splitSlash ('/' :: l) = [] :: splitSlash l := by
  simp [splitSlash]

theorem splitSlash_of_noslash (l : List Char) (h : '/' ∉ l) : splitSlash l = [l] := by
  induction l with
  | nil => rfl
  | cons c rest ih =>
      have hc : ¬ c = '/' := fun hh => h (hh ▸ List.mem_cons_self c rest)
      have hr : '/' ∉ rest := fun hh => h (List.mem_cons_of_mem c hh)
      simp only [splitSlash, if_neg hc, ih hr]

theorem splitSlash_append_slash (s t : List Char) (h : '/' ∉ s) :
    splitSlash (s ++ '/' :: t) = s :: splitSlash t := by
  induction s with
  | nil => simpa using splitSlash_cons_slash t
  | cons c s' ih =>
      have hc : ¬ c = '/' := fun hh => h (hh ▸ List.mem_cons_self c s')
      have hs' : '/' ∉ s' := fun hh => h (List.mem_cons_of_mem c hh)
      simp only [List.cons_append, splitSlash, if_neg hc, List.append_eq, ih hs']

theorem splitSlash_concat_slash (l : List Char) :
    splitSlash (l ++ ['/']) = splitSlash l ++ [[]] := by
  induction l with
  | nil => rfl
  | cons c rest ih =>
      by_cases h : c = '/'
      · subst h
        simp only [List.cons_append, splitSlash_cons_slash, ih]
      · simp only [List.cons_append, splitSlash, if_neg h, List.append_eq, ih]
        cases hsp : splitSlash rest with
        | nil => exact absurd hsp (splitSlash_ne_nil rest)
        | cons x xs => simp [hsp]

theorem joinSlash_cons_cons (s t : List Char) (ts : List (List Char)) :
    joinSlash (s :: t :: ts) = s ++ '/' :: joinSlash (t :: ts) := rfl

theorem joinSlash_ne_nil {segs : List (List Char)} (hne : segs ≠ [])
    (h : ∀ s ∈ segs, s ≠ []) : joinSlash segs ≠ [] := by
  cases segs with
  | nil => exact absurd rfl hne
  | cons s ts =>
      cases ts with
      | nil => exact h s (List.mem_cons_self s [])
      | cons t ts' =>
          rw [joinSlash_cons_cons]
          cases s with
          | nil => exact absurd rfl (h [] (List.mem_cons_self [] (t :: ts')))
          | cons c cs => simp

theorem head?_joinSlash {s : List Char} (ts : List (List Char)) (hs : s ≠ []) :
    (joinSlash (s :: ts)).head? = s.head? := by
  cases ts with
  | nil => rfl
  | cons t ts' =>
      rw [joinSlash_cons_cons, List.head?_append]
      cases s with
      | nil => exact absurd rfl hs
      | cons c cs => rfl

theorem splitSlash_joinSlash (segs : List (List Char)) (hne : segs ≠ [])
    (h : ∀ s ∈ segs, '/' ∉ s) : splitSlash (joinSlash segs) = segs := by
  induction segs with
  | nil => exact absurd rfl hne
  | cons s ts ih =>
      cases ts with
      | nil => exact splitSlash_of_noslash s (h s (List.mem_cons_self s []))
      | cons t ts' =>
          rw [joinSlash_cons_cons,
            splitSlash_append_slash _ _ (h s (List.mem_cons_self s (t :: ts'))),
            ih (by simp) (fun x hx => h x (List.mem_cons_of_mem s hx))]

theorem getLast?_joinSlash (segs : List (List Char)) (hne : segs ≠ [])
    (h : ∀ s ∈ segs, s ≠ []) :
    ∃ lst, segs.getLast? = some lst ∧ (joinSlash segs).getLast? = lst.getLast? := by
  induction segs with
  | nil => exact absurd rfl hne
  | cons s ts ih =>
      cases ts with
      | nil => exact ⟨s, rfl, rfl⟩
      | cons t ts' =>
          obtain ⟨lst, h1, h2⟩ := ih (by simp) (fun x hx => h x (List.mem_cons_of_mem s hx))
          have hlstmem : lst ∈ t :: ts' := List.mem_of_getLast?_eq_some h1
          have hlstne : lst ≠ [] := h lst (List.mem_cons_of_mem s hlstmem)
          refine ⟨lst, by rw [List.getLast?_cons_cons]; exact h1, ?_⟩
          rw [joinSlash_cons_cons, List.getLast?_append]
          have hjoin : joinSlash (t :: ts') ≠ [] :=
            joinSlash_ne_nil (by simp) (fun x hx => h x (List.mem_cons_of_mem s hx))
          have hslash : ('/' :: joinSlash (t :: ts')).getLast? = (joinSlash (t :: ts')).getLast? := by
            cases hj : joinSlash (t :: ts') with
            | nil => exact absurd hj hjoin
            | cons a as => rw [List.getLast?_cons_cons]
          rw [hslash, h2]
          cases hgl : lst.getLast? with
          | none => exact absurd (List.getLast?_eq_none_iff.mp hgl) hlstne
          | some c => rfl

/-! ### Shape of normalized segment lists -/

theorem goodSegs_nil (a : Bool) : GoodSegs a [] :=
  ⟨0, [], by simp, by simp, fun _ => rfl⟩

theorem goodSegs_elem {a : Bool} {segs : List (List Char)} (h : GoodSegs a segs) :
    ∀ s ∈ segs, s ≠ [] ∧ s ≠ ['.'] ∧ '/' ∉ s := by
  obtain ⟨n, rest, rfl, hrest, -⟩ := h
  intro s hs
  rcases List.mem_append.mp hs with hdots | hr
  · have hdot := (List.mem_replicate.mp hdots).2
    subst hdot
    exact ⟨by simp, by decide, by decide⟩
  · exact (hrest s hr).1

theorem normSegStep_good {a : Bool} {acc : List (List Char)} {seg : List Char}
    (hseg : '/' ∉ seg) (hacc : GoodSegs a acc) : GoodSegs a (normSegStep a acc seg) := by
  obtain ⟨n, rest, rfl, hrest, hn⟩ := hacc
  rw [normSegStep]
  by_cases h1 : seg = [] ∨ seg = ['.']
  · rw [if_pos (by rcases h1 with h | h <;> simp [h])]
    exact ⟨n, rest, rfl, hrest, hn⟩
  · push_neg at h1
    rw [if_neg (by simp [h1.1, h1.2])]
    by_cases h2 : seg = ['.', '.']
    · subst h2
      rw [if_pos rfl]
      cases rest with
      | cons r0 rs =>
          obtain ⟨lastr, hl1⟩ := Option.isSome_iff_exists.mp
            (List.getLast?_isSome.mpr (by simp) : ((r0 :: rs).getLast?).isSome = true)
          have hlastmem : lastr ∈ r0 :: rs := List.mem_of_getLast?_eq_some hl1
          have hlastne : lastr ≠ ['.', '.'] := (hrest lastr hlastmem).2
          have hgl : (List.replicate n ['.', '.'] ++ (r0 :: rs)).getLast? = some lastr := by
            rw [List.getLast?_append, hl1]
            rfl
          simp only [hgl]
          rw [if_neg hlastne, List.dropLast_append_of_ne_nil _ (by simp)]
          exact ⟨n, (r0 :: rs).dropLast,
            rfl, fun s hs => hrest s (List.mem_of_mem_dropLast hs), hn⟩
      | nil =>
          simp only [List.append_nil]
          cases n with
          | zero =>
              simp only [List.replicate, List.getLast?_nil]
              cases a
              · exact goodSegs_nil false
              · exact ⟨1, [], rfl, by simp, fun hf => nomatch hf⟩
          | succ m =>
              have ha : a = true := by
                cases hax : a
                · have := hn hax
                  omega
                · rfl
              subst ha
              have hlast : (List.replicate (m + 1) (['.', '.'] : List Char)).getLast? =
                  some ['.', '.'] := by
                rw [List.replicate_succ', List.getLast?_concat]
              simp only [hlast, if_true]
              refine ⟨m + 2, [], ?_, by simp, fun hf => nomatch hf⟩
              rw [List.append_nil, ← List.replicate_succ']
    · rw [if_neg h2]
      exact ⟨n, rest ++ [seg], by rw [List.append_assoc], fun s hs => by
        rcases List.mem_append.mp hs with hr | hsg
        · exact hrest s hr
        · rw [List.mem_singleton.mp hsg]
          exact ⟨⟨h1.1, h1.2, hseg⟩, h2⟩, hn⟩

theorem foldl_normSegStep_good (a : Bool) :
    ∀ (segs : List (List Char)), (∀ s ∈ segs, '/' ∉ s) →
      ∀ acc, GoodSegs a acc → GoodSegs a (segs.foldl (normSegStep a) acc) := by
  intro segs
  induction segs with
  | nil => intro _ acc hacc; exact hacc
  | cons s ts ih =>
      intro h acc hacc
      rw [List.foldl_cons]
      exact ih (fun x hx => h x (List.mem_cons_of_mem s hx)) _
        (normSegStep_good (h s (List.mem_cons_self s ts)) hacc)

theorem normSegsC_good (a : Bool) (segs : List (List Char))
    (h : ∀ s ∈ segs, '/' ∉ s) : GoodSegs a (normSegsC a segs) :=
  foldl_normSegStep_good a segs h [] (goodSegs_nil a)

theorem replicate_prefix_eq {pre post : List (List Char)} {n : Nat}
    {rest : List (List Char)}
    (heq : pre ++ ['.', '.'] :: post = List.replicate n ['.', '.'] ++ rest)
    (hrest : ∀ s ∈ rest, s ≠ ['.', '.']) :
    pre = List.replicate pre.length ['.', '.'] ∧ n ≠ 0 := by
  have hlt : pre.length < n := by
    by_contra hge
    push_neg at hge
    have hdrop := congrArg (List.drop n) heq
    rw [List.drop_append_of_le_length hge] at hdrop
    have hR : List.drop n (List.replicate n (['.', '.'] : List Char) ++ rest) = rest := by
      have hdl := List.drop_left (List.replicate n (['.', '.'] : List Char)) rest
      rwa [List.length_replicate] at hdl
    rw [hR] at hdrop
    have hmem : (['.', '.'] : List Char) ∈ rest := by
      rw [← hdrop]
      simp
    exact absurd rfl (hrest _ hmem)
  refine ⟨?_, by omega⟩
  have htake := congrArg (List.take pre.length) heq
  rw [List.take_left,
    List.take_append_of_le_length (by simp [Nat.le_of_lt hlt]),
    List.take_replicate, Nat.min_eq_left (Nat.le_of_lt hlt)] at htake
  exact htake

theorem foldl_normSegStep_id (a : Bool) :
    ∀ (post pre : List (List Char)), GoodSegs a (pre ++ post) →
      List.foldl (normSegStep a) pre post = pre ++ post := by
  intro post
  induction post with
  | nil => intro pre _; simp
  | cons seg post' ih =>
      intro pre hg
      have hmemseg : seg ∈ pre ++ seg :: post' :=
        List.mem_append.mpr (Or.inr (List.mem_cons_self seg post'))
      have hseg3 := goodSegs_elem hg seg hmemseg
      have hstep : normSegStep a pre seg = pre ++ [seg] := by
        rw [normSegStep, if_neg (by simp [hseg3.1, hseg3.2.1])]
        by_cases h2 : seg = ['.', '.']
        · subst h2
          obtain ⟨n, rest, heq, hrest, hn⟩ := hg
          obtain ⟨hpre, hn0⟩ := replicate_prefix_eq heq (fun s hs => (hrest s hs).2)
          have ha : a = true := by
            cases hax : a
            · exact absurd (hn hax) hn0
            · rfl
          rw [if_pos rfl]
          cases hpre_len : pre.length with
          | zero =>
              have hpre_nil : pre = [] := List.eq_nil_of_length_eq_zero hpre_len
              subst hpre_nil
              simp [ha]
          | succ m =>
              have hlast : pre.getLast? = some ['.', '.'] := by
                rw [hpre, hpre_len, List.replicate_succ', List.getLast?_concat]
              rw [hlast]
              simp [ha]
        · rw [if_neg h2]
      rw [List.foldl_cons, hstep]
      have hassoc : (pre ++ [seg]) ++ post' = pre ++ seg :: post' := by simp
      rw [ih (pre ++ [seg]) (by rw [hassoc]; exact hg), hassoc]

theorem normSegsC_id {a : Bool} {segs : List (List Char)} (h : GoodSegs a segs) :
    normSegsC a segs = segs := by
  rw [normSegsC]
  simpa using foldl_normSegStep_id a segs [] (by simpa using h)

/-! ### Idempotence of path normalization -/

theorem data_mk (l : List Char) : (⟨l⟩ : String).data = l := rfl

theorem normSegsC_cons_nil (a : Bool) (xs : List (List Char)) :
    normSegsC a ([] :: xs) = normSegsC a xs := by
  rw [normSegsC, normSegsC, List.foldl_cons]
  have h : normSegStep a [] [] = [] := rfl
  rw [h]

theorem normSegsC_concat_nil (a : Bool) (xs : List (List Char)) :
    normSegsC a (xs ++ [[]]) = normSegsC a xs := by
  rw [normSegsC, normSegsC, List.foldl_append]
  have h : ∀ acc, normSegStep a acc [] = acc := fun acc => by
    rw [normSegStep, if_pos (by simp)]
  simp [h]

theorem head?_join_ne_slash (segs : List (List Char)) (hne : segs ≠ [])
    (hall : ∀ s ∈ segs, s ≠ [] ∧ s ≠ ['.'] ∧ '/' ∉ s) :
    ((joinSlash segs).head? == some '/') = false := by
  cases segs with
  | nil => exact absurd rfl hne
  | cons s0 ts =>
      rw [head?_joinSlash ts (hall s0 (List.mem_cons_self s0 ts)).1]
      cases s0 with
      | nil => exact absurd rfl (hall [] (List.mem_cons_self [] ts)).1
      | cons c0 s0' =>
          have hc0 : c0 ≠ '/' := fun h =>
            (hall (c0 :: s0') (List.mem_cons_self (c0 :: s0') ts)).2.2
              (h ▸ List.mem_cons_self c0 s0')
          simpa using hc0

theorem getLast?_join_ne_slash (segs : List (List Char)) (hne : segs ≠ [])
    (hall : ∀ s ∈ segs, s ≠ [] ∧ s ≠ ['.'] ∧ '/' ∉ s) :
    ((joinSlash segs).getLast? == some '/') = false := by
  obtain ⟨lst, h1, h2⟩ := getLast?_joinSlash segs hne (fun s hs => (hall s hs).1)
  rw [h2]
  have hlstmem : lst ∈ segs := List.mem_of_getLast?_eq_some h1
  have hlstne := (hall lst hlstmem).1
  have hlstnos := (hall lst hlstmem).2.2
  cases hgl : lst.getLast? with
  | none => exact absurd (List.getLast?_eq_none_iff.mp hgl) hlstne
  | some c =>
      have hcmem : c ∈ lst := List.mem_of_getLast?_eq_some hgl
      have hcne : c ≠ '/' := fun h => hlstnos (h ▸ hcmem)
      simpa using hcne

theorem posixNormalize_canonical (isAbs trail : Bool) (segs : List (List Char))
    (hgood : GoodSegs (!isAbs) segs) (hne : segs ≠ []) :
    posixNormalize
        ⟨(if isAbs then ['/'] else []) ++ joinSlash segs ++ (if trail then ['/'] else [])⟩ =
      ⟨(if isAbs then ['/'] else []) ++ joinSlash segs ++ (if trail then ['/'] else [])⟩ := by
  have hall := goodSegs_elem hgood
  have hnonnil : ∀ s ∈ segs, s ≠ [] := fun s hs => (hall s hs).1
  have hnoslash : ∀ s ∈ segs, '/' ∉ s := fun s hs => (hall s hs).2.2
  have hjoin_ne : joinSlash segs ≠ [] := joinSlash_ne_nil hne hnonnil
  have hsplit_join : splitSlash (joinSlash segs) = segs :=
    splitSlash_joinSlash segs hne hnoslash
  have hhead := head?_join_ne_slash segs hne hall
  have hlast := getLast?_join_ne_slash segs hne hall
  have hheadsome : ∃ c0, (joinSlash segs).head? = some c0 := by
    cases hhd : (joinSlash segs).head? with
    | none => exact absurd (List.head?_eq_none_iff.mp hhd) hjoin_ne
    | some c0 => exact ⟨c0, rfl⟩
  have hlastsome : ∃ cl, (joinSlash segs).getLast? = some cl := by
    cases hgl : (joinSlash segs).getLast? with
    | none => exact absurd (List.getLast?_eq_none_iff.mp hgl) hjoin_ne
    | some cl => exact ⟨cl, rfl⟩
  obtain ⟨c0, hc0⟩ := hheadsome
  obtain ⟨cl, hcl⟩ := hlastsome
  cases isAbs <;> cases trail
  · -- relative, no trailing slash: the string is joinSlash segs itself
    have hid : normSegsC true segs = segs := normSegsC_id hgood
    have hrw : ((if (false : Bool) = true then ['/'] else []) ++ joinSlash segs ++
        (if (false : Bool) = true then ['/'] else []) : List Char) = joinSlash segs := by simp
    rw [hrw]
    have hpne : (⟨joinSlash segs⟩ : String) ≠ "" := fun h => hjoin_ne (congrArg String.data h)
    rw [posixNormalize, if_neg hpne]
    simp only [startsWithSlash, endsWithSlash, data_mk, hhead, hlast, hsplit_join,
      Bool.not_false, hid, if_neg hjoin_ne]
    simp
  · -- relative, trailing slash
    have hid : normSegsC true segs = segs := normSegsC_id hgood
    have hrw : ((if (false : Bool) = true then ['/'] else []) ++ joinSlash segs ++
        (if (true : Bool) = true then ['/'] else []) : List Char) = joinSlash segs ++ ['/'] := by
      simp
    rw [hrw]
    have hdne : joinSlash segs ++ ['/'] ≠ [] := by simp
    have hpne : (⟨joinSlash segs ++ ['/']⟩ : String) ≠ "" :=
      fun h => hdne (congrArg String.data h)
    rw [posixNormalize, if_neg hpne]
    have hh : ((joinSlash segs ++ ['/']).head? == some '/') = false := by
      rw [List.head?_append, hc0]
      rw [hc0] at hhead
      simpa using hhead
    have ht : ((joinSlash segs ++ ['/']).getLast? == some '/') = true := by
      rw [List.getLast?_concat]
      rfl
    simp only [startsWithSlash, endsWithSlash, data_mk, hh, ht, splitSlash_concat_slash,
      hsplit_join, Bool.not_false, normSegsC_concat_nil, hid, if_neg hjoin_ne]
    simp
  · -- absolute, no trailing slash
    have hid : normSegsC false segs = segs := normSegsC_id hgood
    have hrw : ((if (true : Bool) = true then ['/'] else []) ++ joinSlash segs ++
        (if (false : Bool) = true then ['/'] else []) : List Char) = '/' :: joinSlash segs := by
      simp
    rw [hrw]
    have hpne : (⟨'/' :: joinSlash segs⟩ : String) ≠ "" :=
      fun h => List.cons_ne_nil _ _ (congrArg String.data h)
    rw [posixNormalize, if_neg hpne]
    have hh : (('/' :: joinSlash segs).head? == some '/') = true := rfl
    have ht : (('/' :: joinSlash segs).getLast? == some '/') = false := by
      have hgl : ('/' :: joinSlash segs).getLast? = (joinSlash segs).getLast? := by
        cases hj : joinSlash segs with
        | nil => exact absurd hj hjoin_ne
        | cons a as => rw [List.getLast?_cons_cons]
      rw [hgl]
      exact hlast
    simp only [startsWithSlash, endsWithSlash, data_mk, hh, ht, splitSlash_cons_slash,
      hsplit_join, Bool.not_true, normSegsC_cons_nil, hid, if_neg hjoin_ne]
    simp
  · -- absolute, trailing slash
    have hid : normSegsC false segs = segs := normSegsC_id hgood
    have hrw : ((if (true : Bool) = true then ['/'] else []) ++ joinSlash segs ++
        (if (true : Bool) = true then ['/'] else []) : List Char) =
        '/' :: (joinSlash segs ++ ['/']) := by simp
    rw [hrw]
    have hpne : (⟨'/' :: (joinSlash segs ++ ['/'])⟩ : String) ≠ "" :=
      fun h => List.cons_ne_nil _ _ (congrArg String.data h)
    rw [posixNormalize, if_neg hpne]
    have hh : (('/' :: (joinSlash segs ++ ['/'])).head? == some '/') = true := rfl
    have ht : (('/' :: (joinSlash segs ++ ['/'])).getLast? == some '/') = true := by
      have hgl : ('/' :: (joinSlash segs ++ ['/'])).getLast? =
          (joinSlash segs ++ ['/']).getLast? := by
        cases hj : joinSlash segs with
        | nil => exact absurd hj hjoin_ne
        | cons a as => simp
      rw [hgl, List.getLast?_concat]
      rfl
    simp only [startsWithSlash, endsWithSlash, data_mk, hh, ht, splitSlash_cons_slash,
      splitSlash_concat_slash, hsplit_join, Bool.not_true, normSegsC_cons_nil,
      normSegsC_concat_nil, hid, if_neg hjoin_ne]
    simp

theorem posixNormalize_idem (p : String) :
    posixNormalize (posixNormalize p) = posixNormalize p := by
  by_cases hp : p = ""
  · subst hp
    rfl
  · have hnosl := mem_splitSlash_noslash p.data
    have hgood := normSegsC_good (!(startsWithSlash p)) _ hnosl
    by_cases hc : joinSlash (normSegsC (!(startsWithSlash p)) (splitSlash p.data)) = []
    · have hout : posixNormalize p =
          (if startsWithSlash p then "/" else if endsWithSlash p then "./" else ".") := by
        simp only [posixNormalize, if_neg hp, if_pos hc]
      rw [hout]
      cases startsWithSlash p <;> cases endsWithSlash p <;> simp <;> rfl
    · have hsegs_ne : normSegsC (!(startsWithSlash p)) (splitSlash p.data) ≠ [] := by
        intro h
        apply hc
        rw [h]
        rfl
      have hout : posixNormalize p =
          ⟨(if startsWithSlash p then ['/'] else []) ++
            joinSlash (normSegsC (!(startsWithSlash p)) (splitSlash p.data)) ++
            (if endsWithSlash p then ['/'] else [])⟩ := by
        simp only [posixNormalize, if_neg hp, if_neg hc]
        cases startsWithSlash p <;> cases endsWithSlash p <;> simp
      rw [hout]
      exact posixNormalize_canonical _ _ _ hgood hsegs_ne

/-! ### Guard lemmas: what a `none` stats lookup says about the table -/

theorem append_slash_ne_empty (k : String) : k ++ "/" ≠ "" := by
  intro h
  have h2 := endsWithSlash_append_slash k
  rw [h] at h2
  exact absurd h2 (by decide)

theorem getExplicitDirStats_none_hasPath {st : State} {dk : String}
    (h : KyselyFs.getExplicitDirStats st dk = none) : hasPath st dk = false := by
  rw [KyselyFs.getExplicitDirStats] at h
  rw [← findRow_eq_none_iff]
  exact Option.map_eq_none'.mp h

theorem getFileStats_none_hasPath {st : State} {k : String}
    (h : KyselyFs.getFileStats st k = none) : hasPath st k = false := by
  rw [KyselyFs.getFileStats] at h
  rw [← findRow_eq_none_iff]
  exact Option.map_eq_none'.mp h

theorem getDirStats_none_explicit {st : State} {dk : String} (hne : dk ≠ "")
    (h : KyselyFs.getDirStats st dk = none) : KyselyFs.getExplicitDirStats st dk = none := by
  rw [KyselyFs.getDirStats, if_neg hne] at h
  cases hexp : KyselyFs.getExplicitDirStats st dk with
  | none => rfl
  | some s =>
      rw [hexp] at h
      exact absurd h (by simp)

theorem getDirStats_none_hasPath {st : State} {dk : String} (hne : dk ≠ "")
    (h : KyselyFs.getDirStats st dk = none) : hasPath st dk = false :=
  getExplicitDirStats_none_hasPath (getDirStats_none_explicit hne h)

/-! ### Path membership after each SQL statement -/

theorem hasPath_sqlUpsert_imp {st : State} {r : Row} {upd : Row → Row}
    (hupd : ∀ y, (upd y).path = y.path) (q : String)
    (h : hasPath (sqlUpsert st r upd) q = true) : hasPath st q = true ∨ q = r.path := by
  rw [sqlUpsert] at h
  split at h
  · left
    rw [hasPath, List.any_map, List.any_eq_true] at h
    obtain ⟨y, hy, hpred⟩ := h
    rw [hasPath, List.any_eq_true]
    refine ⟨y, hy, ?_⟩
    simp only [Function.comp] at hpred
    by_cases hyy : (y.path == r.path) = true
    · rw [if_pos hyy] at hpred
      rw [hupd y] at hpred
      exact hpred
    · rw [if_neg hyy] at hpred
      exact hpred
  · rw [hasPath, List.any_append] at h
    rcases (Bool.or_eq_true _ _ ▸ h : _ ∨ _) with h1 | h2
    · exact Or.inl h1
    · right
      have : (r.path == q) = true := by simpa using h2
      exact (beq_iff_eq.mp this).symm

theorem hasPath_append_single_imp {st : State} {r : Row} (q : String)
    (h : hasPath (st ++ [r]) q = true) : hasPath st q = true ∨ q = r.path := by
  rw [hasPath, List.any_append] at h
  rcases (Bool.or_eq_true _ _ ▸ h : _ ∨ _) with h1 | h2
  · exact Or.inl h1
  · right
    have : (r.path == q) = true := by simpa using h2
    exact (beq_iff_eq.mp this).symm

theorem hasPath_filter_imp {st : State} {q : Row → Bool} {k : String}
    (h : hasPath (st.filter q) k = true) : hasPath st k = true := by
  rw [hasPath_iff] at h ⊢
  obtain ⟨r, hr, hp⟩ := h
  exact ⟨r, List.mem_of_mem_filter hr, hp⟩

theorem hasPath_updatePath_imp {st st' : State} {oldK newK : String} {now : Nat}
    (h : sqlUpdatePath st oldK newK now = .ok st') (q : String)
    (hq : hasPath st' q = true) :
    hasPath st q = true ∨ (q = newK ∧ hasPath st oldK = true) := by
  rw [sqlUpdatePath] at h
  split at h
  · exact absurd h (by simp)
  · injection h with h'
    rw [← h'] at hq
    rw [hasPath, List.any_map, List.any_eq_true] at hq
    obtain ⟨y, hy, hpred⟩ := hq
    simp only [Function.comp] at hpred
    by_cases hyy : (y.path == oldK) = true
    · rw [if_pos hyy] at hpred
      right
      refine ⟨(beq_iff_eq.mp hpred).symm, ?_⟩
      rw [hasPath, List.any_eq_true]
      exact ⟨y, hy, hyy⟩
    · rw [if_neg hyy] at hpred
      left
      rw [hasPath, List.any_eq_true]
      exact ⟨y, hy, hpred⟩

/-! ### Invariant preservation building blocks -/

theorem tableInv_of_sub {st st' : State}
    (hsub : ∀ k, hasPath st' k = true → hasPath st k = true)
    (hinv : TableInv st) : TableInv st' :=
  fun k hk h1 h2 => hinv k hk (hsub k h1) (hsub (k ++ "/") h2)

theorem tableInv_sqlUpsert {st : State} {r : Row} {upd : Row → Row}
    (hupd : ∀ y, (upd y).path = y.path)
    (hfile : endsWithSlash r.path = false)
    (hnodir : hasPath st (r.path ++ "/") = false)
    (hinv : TableInv st) : TableInv (sqlUpsert st r upd) := by
  intro k hk h1 h2
  rcases hasPath_sqlUpsert_imp hupd k h1 with hk1 | hkeq
  · rcases hasPath_sqlUpsert_imp hupd (k ++ "/") h2 with hk2 | hk2
    · exact hinv k hk hk1 hk2
    · exact append_slash_ne_of_not_slash hfile hk2
  · subst hkeq
    rcases hasPath_sqlUpsert_imp hupd (r.path ++ "/") h2 with hk2 | hk2
    · rw [hk2] at hnodir
      exact absurd hnodir (by simp)
    · exact append_slash_ne (r.path) hk2

theorem tableInv_append_dir {st : State} {fileKey : String} {row : Row}
    (hrowpath : row.path = fileKey ++ "/")
    (hfile : hasPath st fileKey = false)
    (hinv : TableInv st) : TableInv (st ++ [row]) := by
  intro k hk h1 h2
  rcases hasPath_append_single_imp k h1 with hk1 | hkeq
  · rcases hasPath_append_single_imp (k ++ "/") h2 with hk2 | hk2
    · exact hinv k hk hk1 hk2
    · rw [hrowpath] at hk2
      have := append_slash_inj hk2
      subst this
      rw [hk1] at hfile
      exact absurd hfile (by simp)
  · rw [hkeq, hrowpath] at hk
    rw [endsWithSlash_append_slash] at hk
    exact absurd hk (by simp)

theorem tableInv_updatePath {st st' : State} {oldK newK : String} {now : Nat}
    (h : sqlUpdatePath st oldK newK now = .ok st')
    (hnew : endsWithSlash newK = false)
    (hnodir : hasPath st (newK ++ "/") = false)
    (hinv : TableInv st) : TableInv st' := by
  intro k hk h1 h2
  rcases hasPath_updatePath_imp h k h1 with hk1 | ⟨hkeq, -⟩
  · rcases hasPath_updatePath_imp h (k ++ "/") h2 with hk2 | ⟨hk2, -⟩
    · exact hinv k hk hk1 hk2
    · exact append_slash_ne_of_not_slash hnew hk2
  · rw [hkeq] at h2 hk
    rcases hasPath_updatePath_imp h (newK ++ "/") h2 with hk2 | ⟨hk2, -⟩
    · rw [hk2] at hnodir
      exact absurd hnodir (by simp)
    · exact append_slash_ne newK hk2

/-! ### Success characterizations of the mutating operations -/

theorem sqlInsert_ok {st : State} {r : Row} {st' : State} (h : sqlInsert st r = .ok st') :
    hasPath st r.path = false ∧ st' = st ++ [r] := by
  rw [sqlInsert] at h
  split at h
  · exact absurd h (by simp)
  · next hcond =>
      refine ⟨by simpa using hcond, ?_⟩
      injection h with h'
      exact h'.symm

theorem writeFile_ok {st : State} {p : String} {b : List Nat} {now : Nat} {st' : State}
    (h : KyselyFs.writeFile st p b now = .ok st') :
    KyselyFs.getExplicitDirStats st (removeSuffixSlash (normalizePathLike p) ++ "/") = none ∧
    st' = sqlUpsert st
        ⟨removeSuffixSlash (normalizePathLike p), now, now, b.length, createEtag b, some b, none⟩
        (fun x => { x with modified_at := now, size := b.length, content := some b, etag := createEtag b }) := by
  simp only [KyselyFs.writeFile] at h
  split at h
  · exact absurd h (by simp)
  · next hcond =>
      refine ⟨Option.not_isSome_iff_eq_none.mp hcond, ?_⟩
      injection h with h'
      exact h'.symm

theorem mkdir_ok {st : State} {p : String} {recursive : Bool} {now : Nat}
    {ret : Option String} {st' : State}
    (h : KyselyFs.mkdir st p recursive now = .ok (ret, st')) :
    KyselyFs.getFileStats st (removeSuffixSlash (normalizePathLike p)) = none ∧
    st' = st ++ [⟨removeSuffixSlash (normalizePathLike p) ++ "/", now, now, 0, "", none, none⟩] := by
  simp only [KyselyFs.mkdir] at h
  split at h
  · exact absurd h (by simp)
  · next hfile =>
      split at h
      · exact absurd h (by simp)
      · next hdir =>
          split at h
          · exact absurd h (by simp)
          · cases hins : sqlInsert st
                ⟨removeSuffixSlash (normalizePathLike p) ++ "/", now, now, 0, "", none, none⟩ with
            | error e =>
                simp only [hins] at h
                exact absurd h (by simp)
            | ok st1 =>
                simp only [hins] at h
                obtain ⟨-, hst⟩ := sqlInsert_ok hins
                injection h with h'
                have hsnd := congrArg Prod.snd h'
                simp only at hsnd
                refine ⟨Option.not_isSome_iff_eq_none.mp hfile, ?_⟩
                rw [← hsnd, hst]

theorem copyFile_ok {st : State} {src dest : String} {now : Nat} {st' : State}
    (h : KyselyFs.copyFile st src dest now = .ok st') :
    endsWithSlash (normalizePathLike dest) = false ∧
    KyselyFs.getDirStats st (normalizePathLike dest ++ "/") = none ∧
    ∃ f, findRow st (normalizePathLike src) = some f ∧
      st' = sqlUpsert st ⟨normalizePathLike dest, now, now, f.size, f.etag, f.content, none⟩
        (fun x => { x with modified_at := now, size := f.size, content := f.content, etag := f.etag }) := by
  simp only [KyselyFs.copyFile] at h
  split at h
  · exact absurd h (by simp)
  · split at h
    · exact absurd h (by simp)
    · next hdest =>
        split at h
        · exact absurd h (by simp)
        · next hdir =>
            cases hf : findRow st (normalizePathLike src) with
            | none =>
                simp only [hf] at h
                exact absurd h (by simp)
            | some f =>
                simp only [hf] at h
                injection h with h'
                exact ⟨by simpa using hdest, Option.not_isSome_iff_eq_none.mp hdir, f, rfl, h'.symm⟩

theorem rename_ok_file {st : State} {oldP newP : String} {now : Nat} {st' : State}
    (hold : endsWithSlash (normalizePathLike oldP) = false)
    (h : KyselyFs.rename st oldP newP now = .ok st') :
    KyselyFs.getDirStats st (normalizePathLike newP ++ "/") = none ∧
    sqlUpdatePath st (normalizePathLike oldP) (normalizePathLike newP) now = .ok st' := by
  simp only [KyselyFs.rename, hold, Bool.false_eq_true, if_false] at h
  cases hf : KyselyFs.getFileStats st (normalizePathLike oldP) with
  | none =>
      simp only [hf] at h
      exact absurd h (by simp)
  | some fs =>
      simp only [hf] at h
      split at h
      · exact absurd h (by simp)
      · next hdir =>
          split at h
          · exact absurd h (by simp)
          · cases hup : sqlUpdatePath st (normalizePathLike oldP) (normalizePathLike newP) now with
            | error e =>
                simp only [hup] at h
                exact absurd h (by simp)
            | ok st1 =>
                simp only [hup] at h
                injection h with h'
                exact ⟨Option.not_isSome_iff_eq_none.mp hdir, by rw [h']⟩

theorem rmdir_ok_sub {st : State} {p : String} {r : Bool} {st' : State}
    (h : KyselyFs.rmdir st p r = .ok st') :
    ∀ k, hasPath st' k = true → hasPath st k = true := by
  simp only [KyselyFs.rmdir] at h
  split at h
  · exact absurd h (by simp)
  · split at h
    · exact absurd h (by simp)
    · injection h with h'
      intro k hk
      rw [← h'] at hk
      simp only [sqlDeleteLike, sqlDeleteEq] at hk
      exact hasPath_filter_imp (hasPath_filter_imp hk)

theorem unlink_ok_sub {st : State} {p : String} {st' : State}
    (h : KyselyFs.unlink st p = .ok st') :
    ∀ k, hasPath st' k = true → hasPath st k = true := by
  simp only [KyselyFs.unlink] at h
  split at h
  · exact absurd h (by simp)
  · injection h with h'
    intro k hk
    rw [← h'] at hk
    simp only [sqlDeleteEq] at hk
    exact hasPath_filter_imp hk

theorem rm_ok_cases {st : State} {p : String} {recursive force : Bool} {st' : State}
    (h : KyselyFs.rm st p recursive force = .ok st') :
    st' = st ∨ (∃ dk r, KyselyFs.rmdir st dk r = .ok st') ∨
      ∃ q, KyselyFs.unlink st q = .ok st' := by
  simp only [KyselyFs.rm] at h
  cases hs : KyselyFs.stat st p with
  | error e =>
      simp only [hs] at h
      split at h
      · injection h with h'
        exact Or.inl h'.symm
      · exact absurd h (by simp)
  | ok s =>
      simp only [hs] at h
      split at h
      · exact Or.inr (Or.inl ⟨_, _, h⟩)
      · cases hu : KyselyFs.unlink st (removeSuffixSlash (normalizePathLike p)) with
        | ok st1 =>
            simp only [hu] at h
            injection h with h'
            exact Or.inr (Or.inr ⟨_, by rw [hu, h']⟩)
        | error e =>
            simp only [hu] at h
            split at h
            · injection h with h'
              exact Or.inl h'.symm
            · exact absurd h (by simp)

/-! ### The invariant is preserved by every safe step -/

theorem stepSafe_tableInv {st st' : State} (h : StepSafe st st') (hinv : TableInv st) :
    TableInv st' := by
  cases h with
  | writeFile p b now hw =>
      obtain ⟨hguard, rfl⟩ := writeFile_ok hw
      exact tableInv_sqlUpsert (fun y => rfl) (endsWithSlash_removeSuffixSlash _)
        (getExplicitDirStats_none_hasPath hguard) hinv
  | mkdir p recursive now ret hm =>
      obtain ⟨hfile, rfl⟩ := mkdir_ok hm
      exact tableInv_append_dir rfl (getFileStats_none_hasPath hfile) hinv
  | copyFile src dest now hc =>
      obtain ⟨hslash, hdir, f, hf, rfl⟩ := copyFile_ok hc
      exact tableInv_sqlUpsert (fun y => rfl) hslash
        (getDirStats_none_hasPath (append_slash_ne_empty _) hdir) hinv
  | rename oldP newP now hold hnew hr =>
      obtain ⟨hdir, hup⟩ := rename_ok_file hold hr
      exact tableInv_updatePath hup hnew
        (getDirStats_none_hasPath (append_slash_ne_empty _) hdir) hinv
  | rmdir p recursive h1 => exact tableInv_of_sub (rmdir_ok_sub h1) hinv
  | unlink p h1 => exact tableInv_of_sub (unlink_ok_sub h1) hinv
  | rm p recursive force h1 =>
      rcases rm_ok_cases h1 with rfl | ⟨dk, r, hrd⟩ | ⟨q, hu⟩
      · exact hinv
      · exact tableInv_of_sub (rmdir_ok_sub hrd) hinv
      · exact tableInv_of_sub (unlink_ok_sub hu) hinv

theorem tableInv_empty : TableInv [] := by
  intro k hk h1 h2
  simp [hasPath] at h1

/-! ### Lemmas supporting the claim theorems -/

theorem mem_allSuffixes_sub {t s : List Char} (h : t ∈ allSuffixes s) :
    ∀ x ∈ t, x ∈ s := by
  induction s with
  | nil =>
      simp only [allSuffixes, List.mem_singleton] at h
      subst h
      intro x hx
      exact hx
  | cons c s ih =>
      simp only [allSuffixes, List.mem_cons] at h
      rcases h with rfl | h'
      · intro x hx
        exact hx
      · intro x hx
        exact List.mem_cons_of_mem c (ih h' x hx)

theorem likeMatch_literal_mem (c : Char) (hc1 : c ≠ '%') (hc2 : c ≠ '_') :
    ∀ (pat s : List Char), likeMatch pat s = true → c ∈ pat → c ∈ s := by
  intro pat
  induction pat with
  | nil => intro s _ hmem; cases hmem
  | cons p ps ih =>
      intro s hm hmem
      by_cases hp : p = '%'
      · subst hp
        simp only [likeMatch] at hm
        obtain ⟨t, ht, hmt⟩ := List.any_eq_true.mp hm
        rcases List.mem_cons.mp hmem with rfl | hmem'
        · exact absurd rfl hc1
        · exact mem_allSuffixes_sub ht c (ih t hmt hmem')
      · by_cases hq : p = '_'
        · subst hq
          cases s with
          | nil =>
              simp only [likeMatch] at hm
              exact absurd hm (by simp)
          | cons x s' =>
              simp only [likeMatch] at hm
              rcases List.mem_cons.mp hmem with rfl | hmem'
              · exact absurd rfl hc2
              · exact List.mem_cons_of_mem x (ih s' hm hmem')
        · cases s with
          | nil =>
              simp only [likeMatch, hp, hq] at hm
              exact absurd hm (by simp)
          | cons x s' =>
              simp only [likeMatch, hp, hq] at hm
              rcases Bool.and_eq_true _ _ ▸ hm with ⟨h1, h2⟩
              rcases List.mem_cons.mp hmem with rfl | hmem'
              · have hcx : c = x := by simpa using h1
                rw [hcx]
                exact List.mem_cons_self x s'
              · exact List.mem_cons_of_mem x (ih s' h2 hmem')

theorem foldr_encode_backslash :
    ∀ l : List Char, ('%' ∈ l ∨ '_' ∈ l) →
      '\\' ∈ l.foldr
        (fun c acc => if c == '%' || c == '_' then '\\' :: '\\' :: c :: acc else c :: acc) [] := by
  intro l
  induction l with
  | nil => intro hw; rcases hw with h | h <;> cases h
  | cons c t ih =>
      intro hw
      by_cases hc : (c == '%' || c == '_') = true
      · rw [List.foldr_cons, if_pos hc]
        exact List.mem_cons_self _ _
      · rw [List.foldr_cons, if_neg hc]
        have hcn : ¬ c = '%' ∧ ¬ c = '_' := by
          constructor <;> intro hh <;> subst hh <;> simp at hc
        refine List.mem_cons_of_mem _ (ih ?_)
        rcases hw with h | h
        · rcases List.mem_cons.mp h with rfl | h'
          · exact absurd rfl hcn.1
          · exact Or.inl h'
        · rcases List.mem_cons.mp h with rfl | h'
          · exact absurd rfl hcn.2
          · exact Or.inr h'

theorem likePattern_backslash_mem {k : String} (hw : '%' ∈ k.data ∨ '_' ∈ k.data) :
    '\\' ∈ (likePattern k).data := by
  rw [likePattern, String.data_append]
  exact List.mem_append_left _ (foldr_encode_backslash k.data hw)

theorem find?_cond_map (k : String) (f : Row → Row) (hf : ∀ y, (f y).path = y.path) :
    ∀ st : List Row,
      List.find? (fun r => r.path == k) (st.map (fun x => if x.path == k then f x else x)) =
        (List.find? (fun r => r.path == k) st).map f := by
  intro st
  induction st with
  | nil => rfl
  | cons r t ih =>
      by_cases h : (r.path == k) = true
      · have hfr : ((f r).path == k) = true := by rw [hf r]; exact h
        simp only [List.map_cons]
        rw [if_pos h]
        simp only [List.find?_cons, hfr, h]
        rfl
      · simp only [List.map_cons]
        rw [if_neg h]
        simp only [List.find?_cons, ih]
        cases hpa : (r.path == k) with
        | true => exact absurd hpa h
        | false => rfl

theorem find?_append_singleton (p : Row → Bool) (r : Row) (hp : p r = true) :
    ∀ st : List Row, List.find? p st = none → List.find? p (st ++ [r]) = some r := by
  intro st
  induction st with
  | nil => intro _; simp [List.find?_cons, hp]
  | cons a t ih =>
      intro h
      rw [List.cons_append]
      by_cases hpa : p a = true
      · rw [List.find?_cons_of_pos _ hpa] at h
        exact absurd h (by simp)
      · rw [List.find?_cons_of_neg _ (by simpa using hpa)] at h ⊢
        exact ih h

theorem findRow_sqlUpsert {st : State} {r : Row} {upd : Row → Row}
    (hupd : ∀ y, (upd y).path = y.path) :
    findRow (sqlUpsert st r upd) r.path = some (((findRow st r.path).map upd).getD r) := by
  rw [sqlUpsert]
  by_cases h : hasPath st r.path = true
  · rw [if_pos h, findRow, find?_cond_map r.path upd hupd st]
    have hs : (findRow st r.path).isSome = true := (findRow_isSome_iff st r.path).mpr h
    obtain ⟨y, hy⟩ := Option.isSome_iff_exists.mp hs
    rw [show List.find? (fun x => x.path == r.path) st = findRow st r.path from rfl, hy]
    rfl
  · have hb : hasPath st r.path = false := by simpa using h
    have hnone : findRow st r.path = none := (findRow_eq_none_iff st r.path).mpr hb
    rw [if_neg h, hnone]
    exact find?_append_singleton _ r (by simp) st hnone

theorem sqlDeleteEq_id {st : State} {k : String} (h : hasPath st k = false) :
    sqlDeleteEq st k = st := by
  rw [sqlDeleteEq]
  apply List.filter_eq_self.mpr
  intro r hr
  have hall : ∀ x ∈ st, ¬ (x.path == k) = true := List.any_eq_false.mp h
  simp [hall r hr]

theorem getExplicitDirStats_isDir {st : State} {dk : String} {s : VStats}
    (h : KyselyFs.getExplicitDirStats st dk = some s) : s.isDir = true := by
  rw [KyselyFs.getExplicitDirStats] at h
  obtain ⟨r, -, hr⟩ := Option.map_eq_some'.mp h
  rw [← hr]

theorem getImplicitDirStats_isDir {st : State} {dk : String} {s : VStats}
    (h : KyselyFs.getImplicitDirStats st dk = some s) : s.isDir = true := by
  simp only [KyselyFs.getImplicitDirStats] at h
  split at h
  · exact absurd h (by simp)
  · split at h
    · exact absurd h (by simp)
    · injection h with h'
      rw [← h']

theorem getDirStats_isDir {st : State} {dk : String} {s : VStats}
    (h : KyselyFs.getDirStats st dk = some s) : s.isDir = true := by
  simp only [KyselyFs.getDirStats] at h
  split at h
  · exact getImplicitDirStats_isDir h
  · split at h
    · rename_i s' heq
      injection h with h'
      rw [← h']
      exact getExplicitDirStats_isDir heq
    · exact getImplicitDirStats_isDir h

theorem stat_ok_file {st : State} {p : String} {s : VStats}
    (h : KyselyFs.stat st p = .ok s) (hdir : s.isDir = false) :
    endsWithSlash (normalizePathLike p) = false ∧
    KyselyFs.getFileStats st (normalizePathLike p) = some s := by
  simp only [KyselyFs.stat] at h
  split at h
  · split at h
    · rename_i d heq
      injection h with h'
      have hd := getDirStats_isDir heq
      rw [h'] at hd
      rw [hd] at hdir
      exact absurd hdir (by simp)
    · exact absurd h (by simp)
  · rename_i hslash
    refine ⟨by simpa using hslash, ?_⟩
    split at h
    · rename_i f heq
      injection h with h'
      rw [h'] at heq
      exact heq
    · split at h
      · rename_i d heq
        injection h with h'
        have hd := getDirStats_isDir heq
        rw [h'] at hd
        rw [hd] at hdir
        exact absurd hdir (by simp)
      · exact absurd h (by simp)

theorem stat_error_eq {st : State} {p : String} {e : JSError}
    (h : KyselyFs.stat st p = .error e) :
    e = .vfs "no such file or directory" ⟨"ENOENT", "stat", p⟩ := by
  simp only [KyselyFs.stat] at h
  split at h
  · split at h
    · exact absurd h (by simp)
    · injection h with h'
      exact h'.symm
  · split at h
    · exact absurd h (by simp)
    · split at h
      · exact absurd h (by simp)
      · injection h with h'
        exact h'.symm

theorem normalizePathLike_idem (p : String) :
    normalizePathLike (normalizePathLike p) = normalizePathLike p :=
  posixNormalize_idem p

theorem readStreamChunks_none {st : State} {fileKey : String} {r : Row} {cont : List Nat}
    (hr : findRow st fileKey = some r) (hc : r.content = some cont) :
    ∀ (fuel off size : Nat), KyselyFs.readStreamChunks st fileKey size fuel off = none := by
  intro fuel
  induction fuel with
  | zero => intro off size; rfl
  | succ n ih =>
      intro off size
      have hq : KyselyFs.substrQuery st fileKey off size =
          some (some ((cont.drop (off - 1)).take size)) := by
        simp only [KyselyFs.substrQuery, hr, Option.map_some', hc]
      simp only [KyselyFs.readStreamChunks, hq, ih, Option.map_none']

/-! ### The claim theorems -/

/-- C1 (corrected): for a path whose normalized form does not end in `/`,
after `writeFile(p, b)` succeeds, `readFile(p)` returns exactly `b` and
`stat(p)` is a file stats object whose size is the byte length of `b` and
whose etag is the quoted lowercase sha-256 hex digest of `b`.  The claim's
quantification over every path fails: for a trailing-slash path the write is
stored under the stripped key and `stat` of the original path throws ENOENT
(see the counterexample). -/
theorem claim1 (st : State) (p : String) (b : List Nat) (now : Nat) (st' : State)
    (hk : endsWithSlash (normalizePathLike p) = false)
    (h : KyselyFs.writeFile st p b now = .ok st') :
    KyselyFs.readFile st' p = .ok b ∧
    ∃ s, KyselyFs.stat st' p = .ok s ∧ s.isDir = false ∧ s.size = b.length ∧
      s.etag = some (createEtag b) := by
  obtain ⟨hguard, rfl⟩ := writeFile_ok h
  have hrs : removeSuffixSlash (normalizePathLike p) = normalizePathLike p :=
    removeSuffixSlash_eq_self hk
  rw [hrs]
  have hfind : findRow (sqlUpsert st
      ⟨normalizePathLike p, now, now, b.length, createEtag b, some b, none⟩
      (fun x => { x with modified_at := now, size := b.length, content := some b, etag := createEtag b }))
      (normalizePathLike p) =
      some (((findRow st (normalizePathLike p)).map
        (fun x => { x with modified_at := now, size := b.length, content := some b, etag := createEtag b })).getD
        ⟨normalizePathLike p, now, now, b.length, createEtag b, some b, none⟩) :=
    findRow_sqlUpsert (fun y => rfl)
  cases hprev : findRow st (normalizePathLike p) with
  | none =>
      rw [hprev] at hfind
      simp only [Option.map_none', Option.getD_none] at hfind
      refine ⟨?_, ⟨false, now, now, b.length, some (createEtag b)⟩, ?_, rfl, rfl, rfl⟩
      · simp only [KyselyFs.readFile, hrs, hfind]
      · simp only [KyselyFs.stat, hk, Bool.false_eq_true, if_false,
          KyselyFs.getFileStats, hfind, Option.map_some']
  | some y =>
      rw [hprev] at hfind
      simp only [Option.map_some', Option.getD_some] at hfind
      refine ⟨?_, ⟨false, y.created_at, now, b.length, some (createEtag b)⟩, ?_, rfl, rfl, rfl⟩
      · simp only [KyselyFs.readFile, hrs, hfind]
      · simp only [KyselyFs.stat, hk, Bool.false_eq_true, if_false,
          KyselyFs.getFileStats, hfind, Option.map_some']

/-- C1 witness: the concrete write of the bytes `hi` to `/f` read and statted
back. -/
theorem claim1_witness :
    KyselyFs.readFile c1GoodState "/f" = .ok [104, 105] ∧
    ∃ s, KyselyFs.stat c1GoodState "/f" = .ok s ∧ s.isDir = false ∧
      s.size = [104, 105].length ∧ s.etag = some (createEtag [104, 105]) :=
  claim1 [] "/f" [104, 105] 5 c1GoodState (by decide) (by decide)

/-- C1 counterexample: `writeFile("/f/", hi)` succeeds but `stat("/f/")` on
the resulting table throws ENOENT, so the claim fails for trailing-slash
paths. -/
theorem claim1_cex :
    KyselyFs.writeFile [] "/f/" [104, 105] 5 = .ok c1BadState ∧
    KyselyFs.stat c1BadState "/f/" =
      .error (.vfs "no such file or directory" ⟨"ENOENT", "stat", "/f/"⟩) :=
  ⟨by decide, by decide⟩

/-- C2 (corrected): a LIKE prefix pattern built from a key that contains `%`
or `_` matches no backslash-free string at all (the escaper prefixes TWO
backslashes and no ESCAPE clause is attached, so the backslashes are literal
pattern characters that no stored path contains) — so siblings are indeed
unaffected, but not for the reason the claim states; and in the concrete
sibling scenario `/a%b`, `/a_b`, `/axb` listing the root and deleting the
wildcard-named file leaves the siblings untouched. -/
theorem claim2 (k s : String) (hw : '%' ∈ k.data ∨ '_' ∈ k.data)
    (hs : '\\' ∉ s.data) :
    likeMatchS (likePattern k) s = false ∧
    KyselyFs.readdirNames c2st3 "/" false = ["a%b", "a_b", "axb"] ∧
    KyselyFs.rm c2st3 "/a%b" false false =
      .ok [⟨"/a_b", 2, 2, 1, createEtag [2], some [2], none⟩,
           ⟨"/axb", 3, 3, 1, createEtag [3], some [3], none⟩] := by
  refine ⟨?_, by decide, by decide⟩
  cases hb : likeMatchS (likePattern k) s with
  | false => rfl
  | true =>
      exact absurd
        (likeMatch_literal_mem '\\' (by decide) (by decide) (likePattern k).data s.data hb
          (likePattern_backslash_mem hw))
        hs

/-- C2 witness: the pattern built from the directory key `/a%b/` does not
match the sibling `/axb`, and the concrete scenario facts. -/
theorem claim2_witness :
    likeMatchS (likePattern "/a%b/") "/axb" = false ∧
    KyselyFs.readdirNames c2st3 "/" false = ["a%b", "a_b", "axb"] ∧
    KyselyFs.rm c2st3 "/a%b" false false =
      .ok [⟨"/a_b", 2, 2, 1, createEtag [2], some [2], none⟩,
           ⟨"/axb", 3, 3, 1, createEtag [3], some [3], none⟩] :=
  claim2 "/a%b/" "/axb" (Or.inl (by decide)) (by decide)

/-- C2 counterexample: the source escaper prefixes TWO backslashes, not the
single backslash the claim describes (`encodePathForSQLClaimed` is the
claim's escaper, modelled from its words). -/
theorem claim2_cex :
    encodePathForSQL "/a%b/" = "/a\\\\%b/" ∧
    encodePathForSQLClaimed "/a%b/" = "/a\\%b/" ∧
    ¬ encodePathForSQL "/a%b/" = encodePathForSQLClaimed "/a%b/" :=
  ⟨by decide, by decide, by decide⟩

/-- C3 (corrected): the no-file-row-and-explicit-directory-row-with-the-same-base
invariant holds for every table reachable from the empty table when `rename`
is restricted to file renames (neither normalized argument slash-terminated);
the unrestricted claim fails because a directory rename onto an existing
file's base path creates exactly that situation (see the counterexample). -/
theorem claim3 (st : State) (h : Reach StepSafe [] st) : TableInv st := by
  induction h with
  | refl => exact tableInv_empty
  | tail st2 st3 hr hstep ih => exact stepSafe_tableInv hstep ih

/-- C3 witness: the invariant at the table reached by writing the two files
`/y` and `/x`. -/
theorem claim3_witness : TableInv c3FileState2 :=
  claim3 c3FileState2
    (Reach.tail [] c3FileState1 c3FileState2
      (Reach.tail [] [] c3FileState1 (Reach.refl [])
        (StepSafe.writeFile "/y" [1] 1 (by decide)))
      (StepSafe.writeFile "/x" [2] 2 (by decide)))

/-- C3 counterexample: writeFile `/b`, mkdir `/a`, then the successful
directory rename `rename("/a/", "/b")` reach a table holding both the file
row `/b` and the explicit directory row `/b/`. -/
theorem claim3_cex :
    Reach Step [] c3BadState1 ∧ endsWithSlash "/b" = false ∧
    hasPath c3BadState1 "/b" = true ∧ hasPath c3BadState1 "/b/" = true :=
  ⟨Reach.tail [] c3DirState2 c3BadState1
    (Reach.tail [] c3DirState1 c3DirState2
      (Reach.tail [] [] c3DirState1 (Reach.refl [])
        (Step.writeFile "/b" [1] 1 (by decide)))
      (Step.mkdir "/a" true 2 (some "/a/") (by decide)))
    (Step.rename "/a/" "/b" 3 (by decide)), by decide, by decide, by decide⟩

/-- C4 (code bug): on a table with one file `/s`, a copy to the fresh
destination `/d` (overwrite allowed) and a copy to `/p/d` under a missing
parent both escape as thrown ENOENT stat errors instead of the claimed
handled flow (destination-exists probe and 409 parent mapping), because
`isErrnoException` is false for every VFSError; the pre-stat 403 same-resource
check still answers 403. -/
theorem claim4 :
    copyLikeOperation 1 c4State "/s" "/d" none true none 9 =
      .thrown (.vfs "no such file or directory" ⟨"ENOENT", "stat", "/d"⟩) c4State ∧
    copyLikeOperation 1 c4State "/s" "/p/d" none true none 9 =
      .thrown (.vfs "no such file or directory" ⟨"ENOENT", "stat", "/p/"⟩) c4State ∧
    copyLikeOperation 1 c4State "/s" "/s" none false none 9 =
      .res (.failure 403 "Forbidden: source and destination are the same resource") c4State :=
  ⟨by decide, by decide, by decide⟩

/-- C5 (code bug): on a table whose only row is the empty explicit directory
`/d/`, non-recursive rmdir throws ENOTEMPTY although the directory has no
child strictly below it (the children LIKE pattern matches the directory's
own row); the recursive call deletes the row. -/
theorem claim5 :
    KyselyFs.rmdir c5State "/d" false =
      .error (.vfs "directory not empty" ⟨"ENOTEMPTY", "rmdir", "/d"⟩) ∧
    (rowsLike c5State (likePattern "/d/")).filter (fun r => ¬ r.path == "/d/") = [] ∧
    KyselyFs.rmdir c5State "/d" true = .ok [] :=
  ⟨by decide, by decide, by decide⟩

/-- C6 (code bug): on a table with one file `/b` the root directory resolves,
yet non-recursive `mkdir("/a")` throws ENOENT: the parent key is computed as
`dirname("/a/") + "/" = "//"`, which no stats lookup resolves. -/
theorem claim6 :
    KyselyFs.mkdir c6State "/a" false 7 =
      .error (.vfs "no such file or directory" ⟨"ENOENT", "mkdir", "/a"⟩) ∧
    KyselyFs.getDirStats c6State "/" = some ⟨true, 1, 1, 0, none⟩ ∧
    posixDirname "/a/" ++ "/" = "//" ∧
    KyselyFs.getDirStats c6State "//" = none :=
  ⟨by decide, by decide, by decide, by decide⟩

/-- C7 (confirmed): `rm` resolves the path via `stat` and dispatches: for a
directory result it returns exactly what `rmdir` on the slash-terminated key
returns (errors such as ENOTEMPTY surface unchanged, whatever `force` is);
for a file result it returns exactly what `unlink` on the stripped key
returns, and that `unlink` always succeeds with an exact DELETE; when `stat`
fails the error is always the ENOENT stat error, `force = true` swallows it
and `force = false` rethrows a fresh ENOENT. -/
theorem claim7 (st : State) (p : String) (recursive force : Bool) :
    (∀ s, KyselyFs.stat st p = .ok s → s.isDir = true →
      KyselyFs.rm st p recursive force =
        KyselyFs.rmdir st (removeSuffixSlash (normalizePathLike p) ++ "/") recursive) ∧
    (∀ s, KyselyFs.stat st p = .ok s → s.isDir = false →
      KyselyFs.rm st p recursive force =
        KyselyFs.unlink st (removeSuffixSlash (normalizePathLike p)) ∧
      KyselyFs.unlink st (removeSuffixSlash (normalizePathLike p)) =
        .ok (sqlDeleteEq st (normalizePathLike p))) ∧
    (∀ e, KyselyFs.stat st p = .error e →
      e = .vfs "no such file or directory" ⟨"ENOENT", "stat", p⟩ ∧
      (force = true → KyselyFs.rm st p recursive force = .ok st) ∧
      (force = false → KyselyFs.rm st p recursive force =
        .error (.vfs "no such file or directory" ⟨"ENOENT", "rm", p⟩))) := by
  refine ⟨?_, ?_, ?_⟩
  · intro s hs hd
    simp only [KyselyFs.rm, hs, hd, if_true]
  · intro s hs hd
    obtain ⟨hslash, hfile⟩ := stat_ok_file hs hd
    have hfk : removeSuffixSlash (normalizePathLike p) = normalizePathLike p :=
      removeSuffixSlash_eq_self hslash
    have hun : KyselyFs.unlink st (removeSuffixSlash (normalizePathLike p)) =
        .ok (sqlDeleteEq st (normalizePathLike p)) := by
      rw [hfk]
      simp only [KyselyFs.unlink, normalizePathLike_idem p, hslash, Bool.false_eq_true, if_false]
    refine ⟨?_, hun⟩
    simp only [KyselyFs.rm, hs, hd, Bool.false_eq_true, if_false, hun]
  · intro e he
    refine ⟨stat_error_eq he, ?_, ?_⟩
    · intro hf
      subst hf
      simp only [KyselyFs.rm, he, if_true]
    · intro hf
      subst hf
      simp only [KyselyFs.rm, he, Bool.false_eq_true, if_false]

/-- C7 witness: the dispatch facts at the concrete table holding the explicit
directory `/d/`, for `rm("/d", recursive: false, force: true)`. -/
theorem claim7_witness :
    (∀ s, KyselyFs.stat c7DirState "/d" = .ok s → s.isDir = true →
      KyselyFs.rm c7DirState "/d" false true =
        KyselyFs.rmdir c7DirState (removeSuffixSlash (normalizePathLike "/d") ++ "/") false) ∧
    (∀ s, KyselyFs.stat c7DirState "/d" = .ok s → s.isDir = false →
      KyselyFs.rm c7DirState "/d" false true =
        KyselyFs.unlink c7DirState (removeSuffixSlash (normalizePathLike "/d")) ∧
      KyselyFs.unlink c7DirState (removeSuffixSlash (normalizePathLike "/d")) =
        .ok (sqlDeleteEq c7DirState (normalizePathLike "/d"))) ∧
    (∀ e, KyselyFs.stat c7DirState "/d" = .error e →
      e = .vfs "no such file or directory" ⟨"ENOENT", "stat", "/d"⟩ ∧
      (true = true → KyselyFs.rm c7DirState "/d" false true = .ok c7DirState) ∧
      (true = false → KyselyFs.rm c7DirState "/d" false true =
        .error (.vfs "no such file or directory" ⟨"ENOENT", "rm", "/d"⟩))) :=
  claim7 c7DirState "/d" false true

/-- C8 (corrected): copyFile's guard cascade is as claimed (EINVAL for a
directory source key, EISDIR for a destination that is or resolves as a
directory, ENOENT for a missing source row), and on success the destination
row copies `size`, `etag` and `content` from the source with `modified_at`
fresh — but `created_at` is fresh only when the destination row is newly
inserted: on conflict the existing row keeps its old `created_at`, contrary
to the claim (see the counterexample). -/
theorem claim8 (st : State) (src dest : String) (now : Nat) :
    (endsWithSlash (normalizePathLike src) = true →
      KyselyFs.copyFile st src dest now =
        .error (.vfs "Cannot copy directory to file" ⟨"EINVAL", "copyfile", dest⟩)) ∧
    (endsWithSlash (normalizePathLike src) = false →
      endsWithSlash (normalizePathLike dest) = true →
      KyselyFs.copyFile st src dest now =
        .error (.vfs "Cannot copy file to directory" ⟨"EISDIR", "copyfile", dest⟩)) ∧
    (endsWithSlash (normalizePathLike src) = false →
      endsWithSlash (normalizePathLike dest) = false →
      (KyselyFs.getDirStats st (normalizePathLike dest ++ "/")).isSome = true →
      KyselyFs.copyFile st src dest now =
        .error (.vfs "Cannot copy file to directory" ⟨"EISDIR", "copyfile", dest⟩)) ∧
    (endsWithSlash (normalizePathLike src) = false →
      endsWithSlash (normalizePathLike dest) = false →
      (KyselyFs.getDirStats st (normalizePathLike dest ++ "/")).isSome = false →
      findRow st (normalizePathLike src) = none →
      KyselyFs.copyFile st src dest now =
        .error (.vfs "no such file or directory" ⟨"ENOENT", "copyfile", src⟩)) ∧
    (∀ f, endsWithSlash (normalizePathLike src) = false →
      endsWithSlash (normalizePathLike dest) = false →
      (KyselyFs.getDirStats st (normalizePathLike dest ++ "/")).isSome = false →
      findRow st (normalizePathLike src) = some f →
      ∃ st', KyselyFs.copyFile st src dest now = .ok st' ∧
        ∃ r, findRow st' (normalizePathLike dest) = some r ∧
          r.size = f.size ∧ r.etag = f.etag ∧ r.content = f.content ∧
          r.modified_at = now ∧
          r.created_at = ((findRow st (normalizePathLike dest)).map Row.created_at).getD now) := by
  refine ⟨?_, ?_, ?_, ?_, ?_⟩
  · intro h1
    simp [KyselyFs.copyFile, h1]
  · intro h1 h2
    simp [KyselyFs.copyFile, h1, h2]
  · intro h1 h2 h3
    simp [KyselyFs.copyFile, h1, h2, h3]
  · intro h1 h2 h3 h4
    simp [KyselyFs.copyFile, h1, h2, h3, h4]
  · intro f h1 h2 h3 h4
    refine ⟨sqlUpsert st ⟨normalizePathLike dest, now, now, f.size, f.etag, f.content, none⟩
      (fun x => { x with modified_at := now, size := f.size, content := f.content, etag := f.etag }),
      ?_, ?_⟩
    · simp [KyselyFs.copyFile, h1, h2, h3, h4]
    · have hfind : findRow (sqlUpsert st
          ⟨normalizePathLike dest, now, now, f.size, f.etag, f.content, none⟩
          (fun x => { x with modified_at := now, size := f.size, content := f.content, etag := f.etag }))
          (normalizePathLike dest) =
          some (((findRow st (normalizePathLike dest)).map
            (fun x => { x with modified_at := now, size := f.size, content := f.content, etag := f.etag })).getD
            ⟨normalizePathLike dest, now, now, f.size, f.etag, f.content, none⟩) :=
        findRow_sqlUpsert (fun y => rfl)
      cases hprev : findRow st (normalizePathLike dest) with
      | none =>
          rw [hprev] at hfind
          simp only [Option.map_none', Option.getD_none] at hfind
          exact ⟨_, hfind, rfl, rfl, rfl, rfl, rfl⟩
      | some y =>
          rw [hprev] at hfind
          simp only [Option.map_some', Option.getD_some] at hfind
          exact ⟨_, hfind, rfl, rfl, rfl, rfl, rfl⟩

/-- C8 witness: the guard facts and the conflict upsert at the concrete table
with source `/s` and an existing destination row `/d`. -/
theorem claim8_witness :
    (endsWithSlash (normalizePathLike "/s") = true →
      KyselyFs.copyFile c8State "/s" "/d" 9 =
        .error (.vfs "Cannot copy directory to file" ⟨"EINVAL", "copyfile", "/d"⟩)) ∧
    (endsWithSlash (normalizePathLike "/s") = false →
      endsWithSlash (normalizePathLike "/d") = true →
      KyselyFs.copyFile c8State "/s" "/d" 9 =
        .error (.vfs "Cannot copy file to directory" ⟨"EISDIR", "copyfile", "/d"⟩)) ∧
    (endsWithSlash (normalizePathLike "/s") = false →
      endsWithSlash (normalizePathLike "/d") = false →
      (KyselyFs.getDirStats c8State (normalizePathLike "/d" ++ "/")).isSome = true →
      KyselyFs.copyFile c8State "/s" "/d" 9 =
        .error (.vfs "Cannot copy file to directory" ⟨"EISDIR", "copyfile", "/d"⟩)) ∧
    (endsWithSlash (normalizePathLike "/s") = false →
      endsWithSlash (normalizePathLike "/d") = false →
      (KyselyFs.getDirStats c8State (normalizePathLike "/d" ++ "/")).isSome = false →
      findRow c8State (normalizePathLike "/s") = none →
      KyselyFs.copyFile c8State "/s" "/d" 9 =
        .error (.vfs "no such file or directory" ⟨"ENOENT", "copyfile", "/s"⟩)) ∧
    (∀ f, endsWithSlash (normalizePathLike "/s") = false →
      endsWithSlash (normalizePathLike "/d") = false →
      (KyselyFs.getDirStats c8State (normalizePathLike "/d" ++ "/")).isSome = false →
      findRow c8State (normalizePathLike "/s") = some f →
      ∃ st', KyselyFs.copyFile c8State "/s" "/d" 9 = .ok st' ∧
        ∃ r, findRow st' (normalizePathLike "/d") = some r ∧
          r.size = f.size ∧ r.etag = f.etag ∧ r.content = f.content ∧
          r.modified_at = 9 ∧
          r.created_at = ((findRow c8State (normalizePathLike "/d")).map Row.created_at).getD 9) :=
  claim8 c8State "/s" "/d" 9

/-- C8 counterexample: copying `/s` over the existing row `/d` at time 9
keeps the destination's old `created_at` 3 instead of refreshing it. -/
theorem claim8_cex :
    KyselyFs.copyFile c8State "/s" "/d" 9 =
      .ok [⟨"/s", 0, 0, 1, "e", some [1], none⟩, ⟨"/d", 3, 9, 1, "e", some [1], none⟩] ∧
    ¬ (3 : Nat) = 9 :=
  ⟨by decide, by decide⟩

/-- C9 (code bug): on the stored two-byte file `/f` the chunk loop of
createReadStream never reaches its termination test within any finite number
of queries (the row exists and its content is non-NULL, so `!part ||
!part.content` is never true — a past-the-end substr returns an empty, still
truthy, byte array), while the loop the spec describes (stop on a zero-byte
query result, `readStreamChunksSpec`) terminates with exactly the stored
content. -/
theorem claim9 :
    (∀ fuel off size, KyselyFs.readStreamChunks c9State "/f" size fuel off = none) ∧
    KyselyFs.createReadStream c9State "/f" 1048576 1000 = none ∧
    readStreamChunksSpec c9State "/f" 1 5 1 = some [[1], [2]] := by
  have hr : findRow c9State "/f" = some ⟨"/f", 1, 1, 2, "e", some [1, 2], none⟩ := by decide
  have hc : (⟨"/f", 1, 1, 2, "e", some [1, 2], none⟩ : Row).content = some [1, 2] := by decide
  have hnone : ∀ (fuel off size : Nat),
      KyselyFs.readStreamChunks c9State "/f" size fuel off = none :=
    readStreamChunks_none hr hc
  exact ⟨hnone, hnone 1000 1 1048576, by decide⟩

/-- C10 (corrected): `unlink(p)` succeeds with an exact DELETE (zero affected
rows included) whenever the NORMALIZED path does not end in `/`, and the
DELETE route answers 204 whenever `stat` fails on the path; the claim's
condition on the raw path is wrong: a dot-segment path such as `/a/..`
does not end in `/` yet normalizes to a directory key and throws EISDIR
(see the counterexample). -/
theorem claim10 (st : State) (p : String) :
    (endsWithSlash (normalizePathLike p) = false →
      KyselyFs.unlink st p = .ok (sqlDeleteEq st (normalizePathLike p))) ∧
    (endsWithSlash (normalizePathLike p) = false →
      hasPath st (normalizePathLike p) = false →
      KyselyFs.unlink st p = .ok st) ∧
    (∀ e, KyselyFs.stat st p = .error e → deleteHandler st p = some (204, st)) := by
  have hok : endsWithSlash (normalizePathLike p) = false →
      KyselyFs.unlink st p = .ok (sqlDeleteEq st (normalizePathLike p)) := by
    intro hs
    simp only [KyselyFs.unlink, hs, Bool.false_eq_true, if_false]
  refine ⟨hok, ?_, ?_⟩
  · intro hs hnp
    rw [hok hs, sqlDeleteEq_id hnp]
  · intro e he
    simp only [deleteHandler, KyselyFs.rm, he, if_true]

/-- C10 witness: deleting the absent path `/ghost` from the empty table. -/
theorem claim10_witness :
    (endsWithSlash (normalizePathLike "/ghost") = false →
      KyselyFs.unlink [] "/ghost" = .ok (sqlDeleteEq [] (normalizePathLike "/ghost"))) ∧
    (endsWithSlash (normalizePathLike "/ghost") = false →
      hasPath [] (normalizePathLike "/ghost") = false →
      KyselyFs.unlink [] "/ghost" = .ok []) ∧
    (∀ e, KyselyFs.stat [] "/ghost" = .error e → deleteHandler [] "/ghost" = some (204, [])) :=
  claim10 [] "/ghost"

/-- C10 counterexample: `/a/..` does not end in `/`, yet `unlink("/a/..")`
throws EISDIR because the path normalizes to the root key `/`. -/
theorem claim10_cex :
    endsWithSlash "/a/.." = false ∧
    KyselyFs.unlink [] "/a/.." =
      .error (.vfs "illegal operation on a directory" ⟨"EISDIR", "unlink", "/a/.."⟩) :=
  ⟨by decide, by decide⟩

end Wedbav
